import Mathlib

/-!
Verification of the parliament-pipeline debate processing core.

Each definition below is a shallow embedding of a function of the
pipeline source (`app/utils/retry.py`, `app/tasks/poll_task.py`,
`app/tasks/scrape_hansard_task.py`, `app/tasks/summarize_task.py`,
`app/processing/speaker_mapper.py`, `app/processing/contribution_extractor.py`,
`app/summarization/categorizer.py`).  Database tables are modelled as lists
of rows, Python dicts with insertion order as association lists, Python
`None` as `Option`, machine reals (only used for time offsets and scores)
as `ℚ`.
-/

namespace Pipeline

/-! ## Debate row state touched by `app/utils/retry.py` -/

/-- The fields of a `debates` row that `update_debate_status` and
`mark_debate_error` read or write: `status`, `retry_count` and the nullable
`error_message`. -/
structure DebateState where
  status : String
  retry_count : Nat
  error_message : Option String
deriving Repr, DecidableEq

/-- Embedding of `update_debate_status` (retry.py lines 10-17): the update
payload always carries `status`, and carries `error_message` only when the
argument is not `None`; absent keys leave the column untouched. -/
def update_debate_status (status : String) (error_message : Option String)
    (st : DebateState) : DebateState :=
  { st with
    status := status
    error_message := match error_message with
      | some m => some m
      | none => st.error_message }

/-- Embedding of `mark_debate_error` (retry.py lines 20-41): reads the
current `retry_count`; if it is already `≥ max_retries` the debate is moved
to `error` with a `Max retries exceeded.` message and `False` (no more
retries) is returned, else the error message is recorded, the count
incremented, and `True` (can retry) is returned.  The status column is not
part of the update payload in the retry branch. -/
def mark_debate_error (max_retries : Nat) (error_message : String)
    (st : DebateState) : DebateState × Bool :=
  if st.retry_count ≥ max_retries then
    ({ st with
        status := "error"
        error_message := some ("Max retries exceeded. Last error: " ++ error_message)
        retry_count := st.retry_count + 1 }, false)
  else
    ({ st with
        error_message := some error_message
        retry_count := st.retry_count + 1 }, true)

end Pipeline

/-! ## C2: retry bookkeeping of `mark_debate_error` -/

/-- C2: whenever a stage fails, `mark_debate_error` increments `retry_count`
by exactly one; if the new count exceeds `max_retries` (default 3) it sets
status `error` with a message starting `Max retries exceeded.` and reports
that no retry is allowed; otherwise it records the message, leaves the
stage status unchanged, and reports that a retry may be scheduled. -/
theorem C2_mark_debate_error_retry_contract
    (maxR retries : Nat) (status msg : String) (em : Option String) :
    (Pipeline.mark_debate_error maxR msg ⟨status, retries, em⟩).1.retry_count
        = retries + 1 ∧
    (retries + 1 > maxR →
      (Pipeline.mark_debate_error maxR msg ⟨status, retries, em⟩).1.status = "error" ∧
      ("Max retries exceeded." : String).data <+:
        ((Pipeline.mark_debate_error maxR msg
            ⟨status, retries, em⟩).1.error_message.getD "").data ∧
      (Pipeline.mark_debate_error maxR msg ⟨status, retries, em⟩).2 = false) ∧
    (retries + 1 ≤ maxR →
      (Pipeline.mark_debate_error maxR msg ⟨status, retries, em⟩).1.status = status ∧
      (Pipeline.mark_debate_error maxR msg ⟨status, retries, em⟩).1.error_message
          = some msg ∧
      (Pipeline.mark_debate_error maxR msg ⟨status, retries, em⟩).2 = true) := by
  by_cases h : retries ≥ maxR
  · refine ⟨by simp [Pipeline.mark_debate_error, h], fun _ => ⟨?_, ?_, ?_⟩,
      fun hle => absurd h (by omega)⟩
    · simp [Pipeline.mark_debate_error, h]
    · simp only [Pipeline.mark_debate_error, h, if_pos, Option.getD_some,
        String.data_append]
      refine List.IsPrefix.trans ?_ (List.prefix_append _ _)
      decide
    · simp [Pipeline.mark_debate_error, h]
  · refine ⟨by simp [Pipeline.mark_debate_error, h], fun hgt => absurd hgt (by omega),
      fun _ => ⟨?_, ?_, ?_⟩⟩ <;> simp [Pipeline.mark_debate_error, h]

/-- Witness for C2 at a concrete input: with `max_retries = 3` and current
count 3, the new count 4 exceeds the maximum, status becomes `error` and no
retry is allowed. -/
theorem C2_mark_debate_error_retry_contract_witness :
    (Pipeline.mark_debate_error 3 "boom" ⟨"summarizing", 3, none⟩).1.status = "error" ∧
    (Pipeline.mark_debate_error 3 "boom" ⟨"summarizing", 3, none⟩).2 = false := by
  have h := C2_mark_debate_error_retry_contract 3 3 "summarizing" "boom" none
  exact ⟨(h.2.1 (by omega)).1, (h.2.1 (by omega)).2.2⟩

/-! ## C4: whether the successful stage write clears `error_message` -/

/-- C4 counterexample: the success-path write of the publish stage
(`update_debate_status(debate_id, "published")`, publish_task.py line 129)
passes no `error_message`, so an `error_message` left by an earlier
transient failure survives the successful stage write — it is not cleared
to null, contradicting the claim. -/
theorem C4_success_write_does_not_clear_error_counterexample :
    (Pipeline.update_debate_status "published" none
        ⟨"publishing", 1, some "boom"⟩).error_message = some "boom" ∧
    (Pipeline.update_debate_status "published" none
        ⟨"publishing", 1, some "boom"⟩).error_message ≠ none := by
  constructor
  · rfl
  · simp [Pipeline.update_debate_status]

/-- C4 amended: a successful stage completion writes only the new status;
`update_debate_status` called without an error message leaves the
`error_message` column exactly as it was (it is cleared only by the
administrative retrigger, which writes null explicitly). -/
theorem C4_success_write_leaves_error_message (status : String)
    (st : Pipeline.DebateState) :
    (Pipeline.update_debate_status status none st).status = status ∧
    (Pipeline.update_debate_status status none st).error_message
        = st.error_message ∧
    (Pipeline.update_debate_status status none st).retry_count
        = st.retry_count := by
  refine ⟨rfl, rfl, rfl⟩

namespace Pipeline

/-! ## Poll dispatch (`app/tasks/poll_task.py`, `poll_single_source`) -/

/-- A candidate sitting returned by a poller's `detect_new_debates`
(the `debate_info` dict).  Dates are modelled as day numbers (`Int`) so
that `date >= today - timedelta(days=2)` is integer comparison. -/
structure Candidate where
  external_id : String
  title : String
  title_fr : Option String
  date : Int
  session_type : String
  status : String
  source_urls : List String
  hansard_url : Option String
  video_url : Option String
  metadata : List (String × String)
deriving Repr, DecidableEq

/-- A `debates` table row as touched by `poll_single_source`. -/
structure PollDebateRow where
  id : Nat
  legislature_id : Nat
  external_id : String
  title : String
  title_fr : Option String
  date : Int
  session_type : String
  status : String
  source_urls : List String
  hansard_url : Option String
  video_url : Option String
  metadata : List (String × String)
deriving Repr, DecidableEq

/-- The slice of the store the poll touches: the `debates` table plus a
fresh-id counter standing for the store's id generation. -/
structure PollDB where
  debates : List PollDebateRow
  next_id : Nat
deriving Repr, DecidableEq

/-- A call to `trigger_debate_pipeline(debate_id, hansard_first=...)`
recorded as an event (`from_stage` is left at its `"detected"` default on
both poll dispatch paths). -/
structure TriggerEvent where
  debate_id : Nat
  hansard_first : Bool
deriving Repr, DecidableEq

/-- Result of one `poll_single_source` run: the store, `debates_new`, and
the pipeline triggers fired. -/
structure PollOutcome where
  db : PollDB
  new_count : Nat
  triggers : List TriggerEvent
deriving Repr, DecidableEq

/-- Processing of one candidate inside the `for debate_info in detected`
loop of `poll_single_source` (poll_task.py lines 119-208).  `today` models
`date.today()`; federal (`legislature_code == "CA"`) selects the
hansard-first chain. -/
def poll_one_candidate (today : Int) (legislature_code : String)
    (legislature_id : Nat) (c : Candidate) (acc : PollOutcome) : PollOutcome :=
  let existing := acc.db.debates.find? fun r =>
    r.legislature_id = legislature_id ∧ r.external_id = c.external_id
  match existing with
  | some r =>
    if r.status = "scheduled" ∧ c.status = "detected" then
      let updated : PollDebateRow :=
        { r with
          status := "detected"
          title := c.title
          source_urls := c.source_urls
          hansard_url := c.hansard_url
          video_url := c.video_url
          metadata := c.metadata }
      { db := { acc.db with
          debates := acc.db.debates.map fun x => if x.id = r.id then updated else x }
        new_count := acc.new_count + 1
        triggers := acc.triggers ++ [⟨r.id, legislature_code = "CA"⟩] }
    else
      acc
  | none =>
    let row : PollDebateRow :=
      { id := acc.db.next_id
        legislature_id := legislature_id
        external_id := c.external_id
        title := c.title
        title_fr := c.title_fr
        date := c.date
        session_type := c.session_type
        status := c.status
        source_urls := c.source_urls
        hansard_url := c.hansard_url
        video_url := c.video_url
        metadata := c.metadata }
    let db' : PollDB := { debates := acc.db.debates ++ [row], next_id := acc.db.next_id + 1 }
    let triggers' :=
      if c.status = "detected" ∧ c.date ≥ today - 2 then
        acc.triggers ++ [⟨row.id, legislature_code = "CA"⟩]
      else
        acc.triggers
    { db := db', new_count := acc.new_count + 1, triggers := triggers' }

/-- Embedding of `poll_single_source` given the poller's detected
candidates: folds the per-candidate dispatch over the store. -/
def poll_single_source (today : Int) (legislature_code : String)
    (legislature_id : Nat) (detected : List Candidate) (db : PollDB) : PollOutcome :=
  detected.foldl (fun acc c => poll_one_candidate today legislature_code legislature_id c acc)
    { db := db, new_count := 0, triggers := [] }

end Pipeline

/-! ## C3: the 2-day auto-trigger guard -/

/-- Concrete store for the C3 counterexample: one federal debate row in
status `scheduled` whose sitting date (day 90) is 10 days before today
(day 100). -/
def C3_stale_db : Pipeline.PollDB :=
  { debates := [{ id := 0, legislature_id := 1, external_id := "2026-01-01-house",
                  title := "Old sitting", title_fr := none, date := 90,
                  session_type := "house", status := "scheduled",
                  source_urls := [], hansard_url := none, video_url := none,
                  metadata := [] }]
    next_id := 1 }

/-- Concrete candidate for the C3 counterexample: the same sitting
re-detected with a transcript, status `detected`, sitting date still day
90. -/
def C3_stale_candidate : Pipeline.Candidate :=
  { external_id := "2026-01-01-house", title := "Old sitting", title_fr := none,
    date := 90, session_type := "house", status := "detected",
    source_urls := ["u"], hansard_url := some "h", video_url := none,
    metadata := [] }

/-- C3 counterexample: on the scheduled-to-detected transition path the
poll auto-triggers the pipeline even though the sitting date (day 90) is
older than 2 days before today (day 100) — the 2-day cost guard is applied
only on the newly-inserted-debate path, so the claim that it applies to
every dispatch path is false. -/
theorem C3_stale_transition_still_triggers_counterexample :
    (Pipeline.poll_single_source 100 "CA" 1 [C3_stale_candidate] C3_stale_db).triggers
        = [⟨0, true⟩] ∧
    ¬(C3_stale_candidate.date ≥ 100 - 2) := by
  constructor
  · rfl
  · decide

/-- C3 amended: the 2-day guard applies only to the newly-inserted-debate
path — for a candidate with no existing row, a pipeline trigger is fired
only when its status is `detected` and its sitting date is within the last
2 days; but on the existing scheduled-to-detected transition path the
pipeline is triggered unconditionally, whatever the sitting date. -/
theorem C3_two_day_guard_insert_path_only
    (today : Int) (code : String) (legId : Nat) (c : Pipeline.Candidate)
    (acc : Pipeline.PollOutcome) :
    ((acc.db.debates.find? fun r =>
        r.legislature_id = legId ∧ r.external_id = c.external_id) = none →
      ((Pipeline.poll_one_candidate today code legId c acc).triggers ≠ acc.triggers →
        c.status = "detected" ∧ c.date ≥ today - 2)) ∧
    (∀ r : Pipeline.PollDebateRow,
      (acc.db.debates.find? fun r =>
        r.legislature_id = legId ∧ r.external_id = c.external_id) = some r →
      r.status = "scheduled" → c.status = "detected" →
      (Pipeline.poll_one_candidate today code legId c acc).triggers
          = acc.triggers ++ [⟨r.id, code = "CA"⟩]) := by
  constructor
  · intro hnone
    by_cases hcond : c.status = "detected" ∧ c.date ≥ today - 2
    · exact fun _ => hcond
    · intro hne
      exfalso
      apply hne
      simp only [Pipeline.poll_one_candidate, hnone]
      simp [hcond]
      intro hdet
      have h2 : ¬ c.date ≥ today - 2 := fun hge => hcond ⟨hdet, hge⟩
      omega
  · intro r hfind hsched hdet
    simp only [Pipeline.poll_one_candidate, hfind]
    simp [hsched, hdet]

/-- Witness for C3 amended at a concrete input: a fresh federal candidate
dated today with status `detected` fires a trigger, and the theorem's
insert-path implication then yields the guard conditions. -/
theorem C3_two_day_guard_insert_path_only_witness :
    C3_stale_candidate.status = "detected" ∧ (100:Int) ≥ 100 - 2 := by
  have h := (C3_two_day_guard_insert_path_only 100 "CA" 1
    { C3_stale_candidate with date := 100 }
    { db := { debates := [], next_id := 0 }, new_count := 0, triggers := [] }).1
    (by rfl) (by decide)
  exact ⟨h.1, h.2⟩

/-! ## C5: idempotent re-detection in the poll -/

/-- C5: for a polled candidate whose `(legislature, external_id)` already
exists, no new debate row is inserted; the existing row is updated (title,
source URLs, metadata, status to `detected`) and the pipeline triggered
exactly when the existing status is `scheduled` and the candidate status is
`detected`, otherwise everything is left unchanged; consequently polling
the same single-candidate fixture twice yields `debates_new = 1` then
`debates_new = 0`. -/
theorem C5_poll_existing_row_dispatch
    (today : Int) (code : String) (legId : Nat) (c : Pipeline.Candidate)
    (acc : Pipeline.PollOutcome) (r : Pipeline.PollDebateRow)
    (db : Pipeline.PollDB) :
    ((acc.db.debates.find? fun x =>
        x.legislature_id = legId ∧ x.external_id = c.external_id) = some r →
      (Pipeline.poll_one_candidate today code legId c acc).db.debates.length
          = acc.db.debates.length ∧
      (r.status = "scheduled" ∧ c.status = "detected" →
        (Pipeline.poll_one_candidate today code legId c acc).new_count
            = acc.new_count + 1 ∧
        (Pipeline.poll_one_candidate today code legId c acc).triggers
            = acc.triggers ++ [⟨r.id, code = "CA"⟩] ∧
        ({ r with
            status := "detected", title := c.title,
            source_urls := c.source_urls, hansard_url := c.hansard_url,
            video_url := c.video_url, metadata := c.metadata }
          ∈ (Pipeline.poll_one_candidate today code legId c acc).db.debates)) ∧
      (¬(r.status = "scheduled" ∧ c.status = "detected") →
        Pipeline.poll_one_candidate today code legId c acc = acc)) ∧
    ((db.debates.find? fun x =>
        x.legislature_id = legId ∧ x.external_id = c.external_id) = none →
      (Pipeline.poll_single_source today code legId [c] db).new_count = 1 ∧
      (Pipeline.poll_single_source today code legId [c]
          (Pipeline.poll_single_source today code legId [c] db).db).new_count = 0) := by
  constructor
  · intro hfind
    have hr : r ∈ acc.db.debates := List.mem_of_find?_eq_some hfind
    by_cases hc : r.status = "scheduled" ∧ c.status = "detected"
    · obtain ⟨hc1, hc2⟩ := hc
      refine ⟨?_, fun _ => ⟨?_, ?_, ?_⟩, fun hn => (hn ⟨hc1, hc2⟩).elim⟩
      · simp only [Pipeline.poll_one_candidate, hfind]
        simp [hc1, hc2]
      · simp only [Pipeline.poll_one_candidate, hfind]
        simp [hc1, hc2]
      · simp only [Pipeline.poll_one_candidate, hfind]
        simp [hc1, hc2]
      · simp only [Pipeline.poll_one_candidate, hfind]
        rw [if_pos ⟨hc1, hc2⟩]
        exact List.mem_map.mpr ⟨r, hr, by simp⟩
    · refine ⟨?_, fun h => absurd h hc, fun _ => ?_⟩ <;>
        · simp only [Pipeline.poll_one_candidate, hfind]
          rw [if_neg hc]
  · intro hnone
    have hpred : (fun x : Pipeline.PollDebateRow =>
        decide (x.legislature_id = legId ∧ x.external_id = c.external_id))
        { id := db.next_id, legislature_id := legId, external_id := c.external_id,
          title := c.title, title_fr := c.title_fr, date := c.date,
          session_type := c.session_type, status := c.status,
          source_urls := c.source_urls, hansard_url := c.hansard_url,
          video_url := c.video_url, metadata := c.metadata } = true := by simp
    have hns : ¬(c.status = "scheduled" ∧ c.status = "detected") := by
      rintro ⟨h1, h2⟩
      rw [h1] at h2
      exact absurd h2 (by decide)
    have hdb : (Pipeline.poll_single_source today code legId [c] db).db
        = { debates := db.debates ++
              [{ id := db.next_id, legislature_id := legId,
                 external_id := c.external_id,
                 title := c.title, title_fr := c.title_fr, date := c.date,
                 session_type := c.session_type, status := c.status,
                 source_urls := c.source_urls, hansard_url := c.hansard_url,
                 video_url := c.video_url, metadata := c.metadata }]
            next_id := db.next_id + 1 } := by
      simp only [Pipeline.poll_single_source, List.foldl,
        Pipeline.poll_one_candidate, hnone]
    have hfound : List.find? (fun x : Pipeline.PollDebateRow =>
        decide (x.legislature_id = legId ∧ x.external_id = c.external_id))
        [{ id := db.next_id, legislature_id := legId,
           external_id := c.external_id,
           title := c.title, title_fr := c.title_fr, date := c.date,
           session_type := c.session_type, status := c.status,
           source_urls := c.source_urls, hansard_url := c.hansard_url,
           video_url := c.video_url, metadata := c.metadata }]
        = some
          { id := db.next_id, legislature_id := legId,
            external_id := c.external_id,
            title := c.title, title_fr := c.title_fr, date := c.date,
            session_type := c.session_type, status := c.status,
            source_urls := c.source_urls, hansard_url := c.hansard_url,
            video_url := c.video_url, metadata := c.metadata } := by
      simp [List.find?]
    constructor
    · simp only [Pipeline.poll_single_source, List.foldl,
        Pipeline.poll_one_candidate, hnone]
    · -- the second run finds the inserted row and takes the leave-alone
      -- branch: a row inserted as `detected` is not `scheduled`, and one
      -- inserted as `scheduled` faces no `detected` candidate
      rw [hdb]
      simp only [Pipeline.poll_single_source, List.foldl,
        Pipeline.poll_one_candidate, List.find?_append, hnone, Option.none_or]
      rw [hfound]
      simp [hns]

/-- Witness for C5 at a concrete input: a fresh store and a single
`detected` candidate; the first poll counts 1 new debate, the second
counts 0. -/
theorem C5_poll_existing_row_dispatch_witness :
    (Pipeline.poll_single_source 100 "CA" 1 [C3_stale_candidate]
        { debates := [], next_id := 0 }).new_count = 1 ∧
    (Pipeline.poll_single_source 100 "CA" 1 [C3_stale_candidate]
        (Pipeline.poll_single_source 100 "CA" 1 [C3_stale_candidate]
          { debates := [], next_id := 0 }).db).new_count = 0 := by
  have h := (C5_poll_existing_row_dispatch 100 "CA" 1 C3_stale_candidate
    { db := { debates := [], next_id := 0 }, new_count := 0, triggers := [] }
    { id := 0, legislature_id := 1, external_id := "x", title := "t",
      title_fr := none, date := 0, session_type := "house", status := "detected",
      source_urls := [], hansard_url := none, video_url := none, metadata := [] }
    { debates := [], next_id := 0 }).2 (by rfl)
  exact h

namespace Pipeline

/-! ## Summarize stage (`app/tasks/summarize_task.py`) and the
`generate_summary` call contract (`app/summarization/summarizer.py`) -/

/-- Generic model of a Postgres upsert as used through
`supabase.table(...).upsert(..., on_conflict=...)`: if a row with the same
natural key exists it is updated in place, otherwise the row is appended. -/
def upsert_by {α κ : Type} [DecidableEq κ] (key : α → κ) (row : α)
    (table : List α) : List α :=
  if table.any (fun r => key r = key row) then
    table.map (fun r => if key r = key row then row else r)
  else table ++ [row]

/-- Python keyword-argument binding for a call that passes every argument
by keyword: the call binds iff every supplied keyword names a declared
parameter and every parameter without a default is supplied.  A keyword
that names no parameter raises
`TypeError: ... got an unexpected keyword argument ...`. -/
def python_call_binds (params has_default kwargs : List String) : Bool :=
  kwargs.all (fun k => params.contains k) &&
  params.all (fun p => has_default.contains p || kwargs.contains p)

/-- The declared parameters of `generate_summary`
(summarizer.py lines 20-26): `debate`, `transcripts`, `contributions`,
`votes`, `language`. -/
def generate_summary_params : List String :=
  ["debate", "transcripts", "contributions", "votes", "language"]

/-- The parameters of `generate_summary` that carry a default
(`language = "en"`). -/
def generate_summary_defaulted : List String := ["language"]

/-- The keywords passed by `summarize_debate` at its `generate_summary`
call sites (summarize_task.py lines 79-86 and 98-105): including
`debate_topics`, which `generate_summary` does not declare. -/
def summarize_call_keywords : List String :=
  ["debate", "transcripts", "contributions", "votes", "language", "debate_topics"]

/-- A `debate_summaries` row as written by the summarize stage. -/
structure SummaryRow where
  debate_id : Nat
  language : String
  summary_text : String
  key_participants : List String
  key_issues : List String
  outcome_text : Option String
  llm_model : String
deriving Repr, DecidableEq

/-- One topic assignment produced by the categorizer
(`topic_slug`, `confidence`, `is_primary`). -/
structure CategoryAssignment where
  topic_slug : String
  confidence : ℚ
  is_primary : Bool
deriving Repr, DecidableEq

/-- A `debate_categories` row. -/
structure CategoryRow where
  debate_id : Nat
  topic_slug : String
  confidence : ℚ
  is_primary : Bool
deriving Repr, DecidableEq

/-- Result of one `summarize_debate` task run. -/
structure SummarizeOutcome where
  debate : DebateState
  summaries : List SummaryRow
  categories : List CategoryRow
  succeeded : Bool
deriving Repr, DecidableEq

/-- Embedding of the `summarize_debate` task (summarize_task.py lines
19-146).  The stage writes `summarizing`, then calls `generate_summary`
with the keyword set `summarize_call_keywords`; the call executes only if
Python keyword binding succeeds for `generate_summary`'s declared
parameters.  On success the stage would upsert the `en` and `fr` summaries
on `(debate_id, language)`, write `categorizing`, and insert the category
rows (the adapter results are passed in as `en_summary`, `fr_summary`,
`cats_result`); on a raised exception the handler calls
`mark_debate_error`. -/
def summarize_debate_task (max_retries : Nat) (did : Nat)
    (en_summary fr_summary : SummaryRow) (cats_result : List CategoryAssignment)
    (debate : DebateState) (summaries : List SummaryRow)
    (cats : List CategoryRow) : SummarizeOutcome :=
  let d1 := update_debate_status "summarizing" none debate
  if python_call_binds generate_summary_params generate_summary_defaulted
      summarize_call_keywords then
    let s1 := upsert_by (fun r : SummaryRow => (r.debate_id, r.language))
      en_summary summaries
    let s2 := upsert_by (fun r : SummaryRow => (r.debate_id, r.language))
      fr_summary s1
    let d2 := update_debate_status "categorizing" none d1
    let cats' := cats ++ cats_result.map fun a =>
      { debate_id := did, topic_slug := a.topic_slug,
        confidence := a.confidence, is_primary := a.is_primary : CategoryRow }
    { debate := d2, summaries := s2, categories := cats', succeeded := true }
  else
    let r := mark_debate_error max_retries
      "generate_summary() got an unexpected keyword argument: debate_topics" d1
    { debate := r.1, summaries := summaries, categories := cats,
      succeeded := false }

end Pipeline

/-! ## C1: the federal transcript-first happy path through the summarize
stage -/

/-- C1: the claim's happy path requires the summarize stage to call the
LLM adapter once per target language and record both summaries; but the
call site passes the keyword `debate_topics`, which `generate_summary`
does not declare, so Python keyword binding fails — the stage raises
`TypeError` before any adapter call, records no summary rows, and counts
the failure against the retry budget; the chain can therefore never reach
`published` through this stage. -/
theorem C1_summarize_stage_raises_before_llm_call
    (maxR did : Nat) (en fr : Pipeline.SummaryRow)
    (cres : List Pipeline.CategoryAssignment)
    (debate : Pipeline.DebateState) (summaries : List Pipeline.SummaryRow)
    (cats : List Pipeline.CategoryRow) :
    Pipeline.python_call_binds Pipeline.generate_summary_params
      Pipeline.generate_summary_defaulted Pipeline.summarize_call_keywords
      = false ∧
    (Pipeline.summarize_debate_task maxR did en fr cres debate summaries
        cats).succeeded = false ∧
    (Pipeline.summarize_debate_task maxR did en fr cres debate summaries
        cats).summaries = summaries ∧
    (Pipeline.summarize_debate_task maxR did en fr cres debate summaries
        cats).categories = cats ∧
    (Pipeline.summarize_debate_task maxR did en fr cres debate summaries
        cats).debate.retry_count = debate.retry_count + 1 ∧
    (Pipeline.summarize_debate_task maxR did en fr cres debate summaries
        cats).debate.status ≠ "published" := by
  have hb : Pipeline.python_call_binds Pipeline.generate_summary_params
      Pipeline.generate_summary_defaulted Pipeline.summarize_call_keywords
      = false := by decide
  refine ⟨hb, ?_, ?_, ?_, ?_, ?_⟩
  all_goals simp only [Pipeline.summarize_debate_task, hb, Bool.false_eq_true,
    if_false, Pipeline.mark_debate_error, Pipeline.update_debate_status]
  all_goals by_cases h : debate.retry_count ≥ maxR <;> simp [h]

namespace Pipeline

/-! ## Hansard scrape stage writes (`app/tasks/scrape_hansard_task.py`) -/

/-- A speaker entry of the scraper output (`hansard_data["speakers"]`). -/
structure HansardSpeaker where
  name : String
  party : String
  riding : String
  member_id : Option String
  province : String
  member_url : String
  speech_count : Nat
deriving Repr, DecidableEq

/-- A speech entry of the scraper output. -/
structure HansardSpeech where
  speaker_name : String
  speech_text : String
  riding : String
  party : String
  province : String
  time : String
  page_ref : String
  «section» : String
  topics : List String
  member_url : String
deriving Repr, DecidableEq

/-- A topic section of the scraper output (`hansard_data["sections"]`). -/
structure HansardSection where
  topic_title : String
  topic_id : String
  «section» : String
  speeches : List HansardSpeech
  speaker_count : Nat
  parties_involved : List String
deriving Repr, DecidableEq

/-- The scraper output consumed by `scrape_hansard`. -/
structure HansardData where
  sections : List HansardSection
  speakers : List HansardSpeaker
deriving Repr, DecidableEq

/-- A `debate_speakers` row as written by the scrape path (metadata keys
flattened into fields). -/
structure SpeakerRow where
  debate_id : Nat
  name : String
  party : String
  riding : String
  external_id : Option String
  province : String
  member_url : String
  speech_count : Nat
deriving Repr, DecidableEq

/-- A `debate_contributions` row as written by the scrape path (metadata
keys flattened into fields). -/
structure ContributionRow where
  debate_id : Nat
  speaker_name : String
  text : String
  sequence_order : Nat
  riding : String
  party : String
  province : String
  time : String
  page_ref : String
  «section» : String
  topics : List String
  member_url : String
deriving Repr, DecidableEq

/-- A `debate_topics` row. -/
structure TopicRow where
  debate_id : Nat
  topic_title : String
  topic_external_id : String
  «section» : String
  speech_count : Nat
  speaker_count : Nat
  parties_involved : List String
  sequence_order : Nat
deriving Repr, DecidableEq

/-- The store slice the scrape stage writes. -/
structure ScrapeDB where
  speakers : List SpeakerRow
  contributions : List ContributionRow
  topics : List TopicRow
deriving Repr, DecidableEq

/-- The `debate_speakers` upsert payload for one scraped speaker
(scrape_hansard_task.py lines 75-88). -/
def speaker_row_of (did : Nat) (sp : HansardSpeaker) : SpeakerRow :=
  { debate_id := did, name := sp.name, party := sp.party, riding := sp.riding,
    external_id := sp.member_id, province := sp.province,
    member_url := sp.member_url, speech_count := sp.speech_count }

/-- The `debate_contributions` insert payload: speeches flattened across
sections in order, with `sequence_order` equal to the running index
(scrape_hansard_task.py lines 90-111). -/
def scrape_contribution_rows (did : Nat) (sections : List HansardSection) :
    List ContributionRow :=
  ((sections.flatMap fun s => s.speeches).enum).map fun p =>
    { debate_id := did, speaker_name := p.2.speaker_name,
      text := p.2.speech_text, sequence_order := p.1,
      riding := p.2.riding, party := p.2.party, province := p.2.province,
      time := p.2.time, page_ref := p.2.page_ref, «section» := p.2.«section»,
      topics := p.2.topics, member_url := p.2.member_url }

/-- The `debate_topics` upsert payload for one section at its index
(scrape_hansard_task.py lines 114-124). -/
def topic_row_of (did : Nat) (i : Nat) (s : HansardSection) : TopicRow :=
  { debate_id := did, topic_title := s.topic_title,
    topic_external_id := s.topic_id, «section» := s.«section»,
    speech_count := s.speeches.length, speaker_count := s.speaker_count,
    parties_involved := s.parties_involved, sequence_order := i }

/-- Embedding of the write phase of `scrape_hansard` (scrape_hansard_task.py
lines 74-124): speakers are upserted on `(debate_id, name)`, contributions
are plain inserts with a per-run running `sequence_order`, topics are
upserted on `(debate_id, topic_title)`. -/
def scrape_hansard_writes (did : Nat) (h : HansardData) (db : ScrapeDB) :
    ScrapeDB :=
  { speakers := h.speakers.foldl (fun t sp =>
      upsert_by (fun r : SpeakerRow => (r.debate_id, r.name))
        (speaker_row_of did sp) t) db.speakers
    contributions := db.contributions ++ scrape_contribution_rows did h.sections
    topics := (h.sections.enum).foldl (fun t p =>
      upsert_by (fun r : TopicRow => (r.debate_id, r.topic_title))
        (topic_row_of did p.1 p.2) t) db.topics }

/-- The category insert of the summarize stage (summarize_task.py lines
125-136): a plain insert of one row per assignment, no upsert and no
delete. -/
def insert_category_rows (did : Nat) (cres : List CategoryAssignment)
    (cats : List CategoryRow) : List CategoryRow :=
  cats ++ cres.map fun a =>
    { debate_id := did, topic_slug := a.topic_slug,
      confidence := a.confidence, is_primary := a.is_primary }

end Pipeline

namespace Pipeline

section UpsertLemmas

variable {α κ : Type} [DecidableEq κ] (key : α → κ)

/-- A natural key is present in a table. -/
def key_present (k : κ) (t : List α) : Prop := ∃ x ∈ t, key x = k

/-- An upsert whose key is present and whose row already equals every row
at that key leaves the table unchanged. -/
theorem upsert_by_eq_self (row : α) (t : List α)
    (hpres : key_present key (key row) t)
    (heq : ∀ x ∈ t, key x = key row → x = row) :
    upsert_by key row t = t := by
  obtain ⟨w, hw, hkw⟩ := hpres
  unfold upsert_by
  rw [if_pos (by rw [List.any_eq_true]; exact ⟨w, hw, by simp [hkw]⟩)]
  calc t.map (fun r => if key r = key row then row else r)
      = t.map id := by
        refine List.map_congr_left fun x hx => ?_
        by_cases hk : key x = key row
        · simp [hk, (heq x hx hk).symm]
        · simp [hk]
    _ = t := List.map_id t

/-- After an upsert, the upserted row's key is present. -/
theorem upsert_by_key_present_self (row : α) (t : List α) :
    key_present key (key row) (upsert_by key row t) := by
  unfold upsert_by
  split
  · rename_i hp
    rw [List.any_eq_true] at hp
    obtain ⟨x, hx, hk⟩ := hp
    simp only [decide_eq_true_eq] at hk
    exact ⟨row, List.mem_map.mpr ⟨x, hx, by simp [hk]⟩, rfl⟩
  · exact ⟨row, List.mem_append.mpr (Or.inr (List.mem_singleton.mpr rfl)), rfl⟩

/-- An upsert preserves presence of every key. -/
theorem upsert_by_key_present_mono (row : α) (t : List α) (k : κ)
    (h : key_present key k t) :
    key_present key k (upsert_by key row t) := by
  obtain ⟨x, hx, hk⟩ := h
  unfold upsert_by
  split
  · by_cases hky : key x = key row
    · exact ⟨row, List.mem_map.mpr ⟨x, hx, by simp [hky]⟩, by rw [← hky, hk]⟩
    · exact ⟨x, List.mem_map.mpr ⟨x, hx, by simp [hky]⟩, hk⟩
  · exact ⟨x, List.mem_append.mpr (Or.inl hx), hk⟩

/-- An upsert at a different key preserves "every row at key `k` equals
`v`". -/
theorem upsert_by_preserves_all_eq (row : α) (t : List α) (k : κ) (v : α)
    (hne : key row ≠ k)
    (h : ∀ x ∈ t, key x = k → x = v) :
    ∀ x ∈ upsert_by key row t, key x = k → x = v := by
  intro x hx hk
  unfold upsert_by at hx
  split at hx
  · obtain ⟨y, hy, hxy⟩ := List.mem_map.mp hx
    by_cases hky : key y = key row
    · rw [if_pos hky] at hxy
      exact absurd (hxy ▸ hk) hne
    · rw [if_neg hky] at hxy
      subst hxy
      exact h _ hy hk
  · rcases List.mem_append.mp hx with hx1 | hx2
    · exact h x hx1 hk
    · rw [List.mem_singleton.mp hx2] at hk ⊢
      exact absurd hk hne

/-- Immediately after upserting `row`, every row at `row`'s key equals
`row`. -/
theorem upsert_by_all_eq_self (row : α) (t : List α) :
    ∀ x ∈ upsert_by key row t, key x = key row → x = row := by
  intro x hx _
  unfold upsert_by at hx
  rename_i hk
  split at hx
  · obtain ⟨y, hy, hxy⟩ := List.mem_map.mp hx
    by_cases hky : key y = key row
    · rw [if_pos hky] at hxy
      exact hxy.symm
    · rw [if_neg hky] at hxy
      exact absurd (hxy ▸ hk) hky
  · rcases List.mem_append.mp hx with hx1 | hx2
    · exact absurd hk (by
        rename_i hany
        intro hkx
        exact hany (by rw [List.any_eq_true]; exact ⟨x, hx1, by simp [hkx]⟩))
    · exact List.mem_singleton.mp hx2

/-- Folding upserts preserves presence of a key. -/
theorem foldl_upsert_key_present_mono (rs : List α) (t : List α) (k : κ)
    (h : key_present key k t) :
    key_present key k (rs.foldl (fun acc r => upsert_by key r acc) t) := by
  induction rs generalizing t with
  | nil => exact h
  | cons r rest ih => exact ih _ (upsert_by_key_present_mono key r t k h)

/-- After folding upserts of `rs` over any table, the key of every member
of `rs` is present. -/
theorem foldl_upsert_key_present (rs : List α) (t : List α) (row : α)
    (hmem : row ∈ rs) :
    key_present key (key row)
      (rs.foldl (fun acc r => upsert_by key r acc) t) := by
  induction rs generalizing t with
  | nil => cases hmem
  | cons r rest ih =>
    rcases List.mem_cons.mp hmem with h1 | h2
    · subst h1
      exact foldl_upsert_key_present_mono key rest _ _
        (upsert_by_key_present_self key row t)
    · exact ih _ h2

/-- Folding upserts whose keys avoid `k` preserves "every row at key `k`
equals `v`". -/
theorem foldl_upsert_preserves_all_eq (rs : List α) (t : List α) (k : κ)
    (v : α) (hnotin : ∀ r ∈ rs, key r ≠ k)
    (h : ∀ x ∈ t, key x = k → x = v) :
    ∀ x ∈ rs.foldl (fun acc r => upsert_by key r acc) t, key x = k → x = v := by
  induction rs generalizing t with
  | nil => exact h
  | cons r rest ih =>
    exact ih _ (fun r' hr' => hnotin r' (List.mem_cons_of_mem _ hr'))
      (upsert_by_preserves_all_eq key r t k v (hnotin r (List.mem_cons_self _ _)) h)

/-- With pairwise-distinct keys, after folding the upserts every row at a
member's key equals that member. -/
theorem foldl_upsert_all_eq (rs : List α) (t : List α) (row : α)
    (hnd : (rs.map key).Nodup) (hmem : row ∈ rs) :
    ∀ x ∈ rs.foldl (fun acc r => upsert_by key r acc) t,
      key x = key row → x = row := by
  induction rs generalizing t with
  | nil => cases hmem
  | cons r rest ih =>
    rw [List.map_cons, List.nodup_cons] at hnd
    rcases List.mem_cons.mp hmem with h1 | h2
    · subst h1
      refine foldl_upsert_preserves_all_eq key rest _ _ _ ?_
        (upsert_by_all_eq_self key row t)
      intro r' hr' hkr'
      exact hnd.1 (hkr' ▸ List.mem_map_of_mem key hr')
    · exact ih _ hnd.2 h2

/-- Folding upserts over a table in which every upserted row is already
the unique row at its key is a no-op. -/
theorem foldl_upsert_eq_self (rs : List α) (u : List α)
    (h : ∀ row ∈ rs, key_present key (key row) u ∧
      (∀ x ∈ u, key x = key row → x = row)) :
    rs.foldl (fun acc r => upsert_by key r acc) u = u := by
  induction rs with
  | nil => rfl
  | cons r rest ih =>
    have h0 := h r (List.mem_cons_self _ _)
    rw [List.foldl_cons, upsert_by_eq_self key r u h0.1 h0.2]
    exact ih fun row hm => h row (List.mem_cons_of_mem _ hm)

/-- With pairwise-distinct keys, re-folding the same upserts is
idempotent. -/
theorem foldl_upsert_idem (rs : List α) (t : List α)
    (hnd : (rs.map key).Nodup) :
    rs.foldl (fun acc r => upsert_by key r acc)
      (rs.foldl (fun acc r => upsert_by key r acc) t)
    = rs.foldl (fun acc r => upsert_by key r acc) t :=
  foldl_upsert_eq_self key rs _ fun row hm =>
    ⟨foldl_upsert_key_present key rs t row hm,
     foldl_upsert_all_eq key rs t row hnd hm⟩

end UpsertLemmas

end Pipeline

namespace Pipeline

/-- Enumerating then projecting the value component is the identity on the
value list. -/
theorem enum_map_snd_comp {β γ : Type} (l : List β) (f : β → γ) :
    l.enum.map (fun p => f p.2) = l.map f := by
  have h1 : (fun p : Nat × β => f p.2) = f ∘ Prod.snd := rfl
  rw [h1, ← List.map_map, List.enum, List.enumFrom_map_snd]

end Pipeline

/-! ## C6: stage idempotence on re-run -/

/-- One speech of the C6 fixture. -/
def C6_speech : Pipeline.HansardSpeech where
  speaker_name := "Mr. Smith"
  speech_text := "I rise today to speak"
  riding := "Riverside"
  party := "LPC"
  province := "ON"
  time := "10:05"
  page_ref := "101"
  «section» := "Government Orders"
  topics := ["Bill C-1"]
  member_url := "u"

/-- The single topic section of the C6 fixture. -/
def C6_topic_section : Pipeline.HansardSection where
  topic_title := "Bill C-1"
  topic_id := "t1"
  «section» := "Government Orders"
  speeches := [C6_speech]
  speaker_count := 1
  parties_involved := ["LPC"]

/-- The single speaker of the C6 fixture. -/
def C6_speaker : Pipeline.HansardSpeaker where
  name := "Mr. Smith"
  party := "LPC"
  riding := "Riverside"
  member_id := some "m1"
  province := "ON"
  member_url := "u"
  speech_count := 1

/-- Concrete scraper output for C6: one section holding one speech, one
speaker. -/
def C6_fixture : Pipeline.HansardData where
  sections := [C6_topic_section]
  speakers := [C6_speaker]

/-- C6 counterexample: running the scrape stage's writes twice on the same
debate does not produce the same end state — the contribution insert is a
plain insert, so the second run duplicates every contribution row (2 rows
instead of 1 for a one-speech fixture). -/
theorem C6_scrape_rerun_duplicates_counterexample :
    (Pipeline.scrape_hansard_writes 1 C6_fixture
        (Pipeline.scrape_hansard_writes 1 C6_fixture
          ⟨[], [], []⟩)).contributions.length = 2 ∧
    (Pipeline.scrape_hansard_writes 1 C6_fixture
        ⟨[], [], []⟩).contributions.length = 1 ∧
    Pipeline.scrape_hansard_writes 1 C6_fixture
        (Pipeline.scrape_hansard_writes 1 C6_fixture ⟨[], [], []⟩)
      ≠ Pipeline.scrape_hansard_writes 1 C6_fixture ⟨[], [], []⟩ := by
  refine ⟨rfl, rfl, ?_⟩
  decide

/-- C6 amended: only the keyed writes are idempotent — re-running the
scrape stage leaves the speaker and topic tables unchanged (they are
upserts on `(debate, name)` resp. `(debate, topic_title)`, and the scraper
emits unique names and titles), and the summary upsert on
`(debate, language)` is idempotent; but contribution rows and category
rows are plain inserts, so a re-run appends a full duplicate batch — the
stages are not idempotent. -/
theorem C6_keyed_writes_idempotent_plain_inserts_duplicate
    (did : Nat) (h : Pipeline.HansardData) (db : Pipeline.ScrapeDB) :
    ((h.speakers.map fun sp => sp.name).Nodup →
      (Pipeline.scrape_hansard_writes did h
          (Pipeline.scrape_hansard_writes did h db)).speakers
        = (Pipeline.scrape_hansard_writes did h db).speakers) ∧
    ((h.sections.map fun s => s.topic_title).Nodup →
      (Pipeline.scrape_hansard_writes did h
          (Pipeline.scrape_hansard_writes did h db)).topics
        = (Pipeline.scrape_hansard_writes did h db).topics) ∧
    (Pipeline.scrape_hansard_writes did h
        (Pipeline.scrape_hansard_writes did h db)).contributions
      = (Pipeline.scrape_hansard_writes did h db).contributions
        ++ Pipeline.scrape_contribution_rows did h.sections ∧
    (∀ (r : Pipeline.SummaryRow) (tbl : List Pipeline.SummaryRow),
      Pipeline.upsert_by (fun x : Pipeline.SummaryRow => (x.debate_id, x.language))
        r (Pipeline.upsert_by
            (fun x : Pipeline.SummaryRow => (x.debate_id, x.language)) r tbl)
      = Pipeline.upsert_by
          (fun x : Pipeline.SummaryRow => (x.debate_id, x.language)) r tbl) ∧
    (∀ (cres : List Pipeline.CategoryAssignment)
        (cats : List Pipeline.CategoryRow),
      (Pipeline.insert_category_rows did cres
          (Pipeline.insert_category_rows did cres cats)).length
        = cats.length + cres.length + cres.length) := by
  refine ⟨?_, ?_, ?_, ?_, ?_⟩
  · intro hn
    have heq : ∀ init : List Pipeline.SpeakerRow,
        h.speakers.foldl (fun t sp =>
          Pipeline.upsert_by (fun r : Pipeline.SpeakerRow => (r.debate_id, r.name))
            (Pipeline.speaker_row_of did sp) t) init
        = (h.speakers.map (Pipeline.speaker_row_of did)).foldl (fun t r =>
          Pipeline.upsert_by (fun r : Pipeline.SpeakerRow => (r.debate_id, r.name))
            r t) init :=
      fun init => (List.foldl_map (Pipeline.speaker_row_of did)
        (fun t r => Pipeline.upsert_by
          (fun r : Pipeline.SpeakerRow => (r.debate_id, r.name)) r t)
        h.speakers init).symm
    have hnd : (((h.speakers.map (Pipeline.speaker_row_of did)).map
        fun r : Pipeline.SpeakerRow => (r.debate_id, r.name))).Nodup := by
      rw [List.map_map]
      have hco : ((fun r : Pipeline.SpeakerRow => (r.debate_id, r.name)) ∘
          Pipeline.speaker_row_of did)
          = (fun n : String => (did, n)) ∘ (fun sp : Pipeline.HansardSpeaker =>
            sp.name) := rfl
      rw [hco, ← List.map_map]
      refine List.Nodup.map ?_ hn
      intro a b hab
      simpa using congrArg Prod.snd hab
    simp only [Pipeline.scrape_hansard_writes]
    rw [heq, heq]
    exact Pipeline.foldl_upsert_idem _ _ _ hnd
  · intro hn
    have heq : ∀ init : List Pipeline.TopicRow,
        (h.sections.enum).foldl (fun t p =>
          Pipeline.upsert_by (fun r : Pipeline.TopicRow =>
            (r.debate_id, r.topic_title)) (Pipeline.topic_row_of did p.1 p.2) t) init
        = ((h.sections.enum).map (fun p => Pipeline.topic_row_of did p.1 p.2)).foldl
            (fun t r => Pipeline.upsert_by (fun r : Pipeline.TopicRow =>
              (r.debate_id, r.topic_title)) r t) init :=
      fun init => (List.foldl_map
        (fun p : Nat × Pipeline.HansardSection =>
          Pipeline.topic_row_of did p.1 p.2)
        (fun t r => Pipeline.upsert_by (fun r : Pipeline.TopicRow =>
          (r.debate_id, r.topic_title)) r t)
        h.sections.enum init).symm
    have hnd : ((((h.sections.enum).map fun p =>
        Pipeline.topic_row_of did p.1 p.2).map
        fun r : Pipeline.TopicRow => (r.debate_id, r.topic_title))).Nodup := by
      rw [List.map_map]
      have hco : ((fun r : Pipeline.TopicRow => (r.debate_id, r.topic_title)) ∘
          fun p : Nat × Pipeline.HansardSection =>
            Pipeline.topic_row_of did p.1 p.2)
          = fun p : Nat × Pipeline.HansardSection =>
              (did, p.2.topic_title) := rfl
      rw [hco, Pipeline.enum_map_snd_comp h.sections
        (fun s => (did, s.topic_title))]
      have hco2 : (fun s : Pipeline.HansardSection => (did, s.topic_title))
          = (fun n : String => (did, n)) ∘ (fun s : Pipeline.HansardSection =>
            s.topic_title) := rfl
      rw [hco2, ← List.map_map]
      refine List.Nodup.map ?_ hn
      intro a b hab
      simpa using congrArg Prod.snd hab
    simp only [Pipeline.scrape_hansard_writes]
    rw [heq, heq]
    exact Pipeline.foldl_upsert_idem _ _ _ hnd
  · rfl
  · intro r tbl
    have hnd : (([r].map fun x : Pipeline.SummaryRow =>
        (x.debate_id, x.language))).Nodup := by simp
    simpa using Pipeline.foldl_upsert_idem
      (fun x : Pipeline.SummaryRow => (x.debate_id, x.language)) [r] tbl hnd
  · intro cres cats
    simp [Pipeline.insert_category_rows]
    omega

/-- Witness for C6 amended at the concrete fixture: the speaker table is
unchanged by a re-run of the scrape writes there. -/
theorem C6_keyed_writes_idempotent_witness :
    (Pipeline.scrape_hansard_writes 1 C6_fixture
        (Pipeline.scrape_hansard_writes 1 C6_fixture ⟨[], [], []⟩)).speakers
      = (Pipeline.scrape_hansard_writes 1 C6_fixture ⟨[], [], []⟩).speakers := by
  exact (C6_keyed_writes_idempotent_plain_inserts_duplicate 1 C6_fixture
    ⟨[], [], []⟩).1 (by decide)

namespace Pipeline

/-! ## Character-level model of Python string primitives used by
`_normalize_name` (`app/processing/speaker_mapper.py` lines 161-174) and
the contribution extractor.  Python `str` is modelled as `List Char`. -/

/-- Python `\s` / `str.strip()` whitespace: space, tab, newline, carriage
return, vertical tab, form feed. -/
def is_py_space (c : Char) : Bool :=
  c = ' ' || c = '\t' || c = '\n' || c = '\r' || c.toNat = 11 || c.toNat = 12

/-- Association lookup in a character table (first match wins). -/
def tbl_lookup : List (Char × Char) → Char → Option Char
  | [], _ => none
  | p :: t, c => if c = p.1 then some p.2 else tbl_lookup t c

/-- The accent-stripping table modelling `unidecode` on the Latin-1
accented letters that map one-to-one to ASCII (the scope needed for
parliamentary speaker names). -/
def accent_table : List (Char × Char) :=
  [('é', 'e'), ('è', 'e'), ('ê', 'e'), ('ë', 'e'),
   ('à', 'a'), ('â', 'a'), ('ä', 'a'),
   ('ç', 'c'), ('î', 'i'), ('ï', 'i'),
   ('ô', 'o'), ('ö', 'o'), ('û', 'u'), ('ù', 'u'), ('ü', 'u'),
   ('É', 'E'), ('È', 'E'), ('Ê', 'E'), ('Ë', 'E'),
   ('À', 'A'), ('Â', 'A'), ('Ä', 'A'),
   ('Ç', 'C'), ('Î', 'I'), ('Ï', 'I'),
   ('Ô', 'O'), ('Ö', 'O'), ('Û', 'U'), ('Ù', 'U'), ('Ü', 'U')]

/-- `unidecode` on one character: ASCII passes through, accented letters
map through `accent_table`. -/
def unidecode_char (c : Char) : Char :=
  if c.toNat ≤ 127 then c
  else match tbl_lookup accent_table c with
    | some d => d
    | none => c

/-- The upper-to-lower table for `str.lower()` on ASCII letters (the
character range reachable after `unidecode`). -/
def upper_table : List (Char × Char) :=
  [('A', 'a'), ('B', 'b'), ('C', 'c'), ('D', 'd'), ('E', 'e'), ('F', 'f'),
   ('G', 'g'), ('H', 'h'), ('I', 'i'), ('J', 'j'), ('K', 'k'), ('L', 'l'),
   ('M', 'm'), ('N', 'n'), ('O', 'o'), ('P', 'p'), ('Q', 'q'), ('R', 'r'),
   ('S', 's'), ('T', 't'), ('U', 'u'), ('V', 'v'), ('W', 'w'), ('X', 'x'),
   ('Y', 'y'), ('Z', 'z')]

/-- `str.lower()` on one character. -/
def ascii_lower (c : Char) : Char :=
  match tbl_lookup upper_table c with
  | some d => d
  | none => c

/-- Drop trailing Python whitespace. -/
def drop_trailing_ws : List Char → List Char
  | [] => []
  | c :: rest =>
    let r := drop_trailing_ws rest
    if r = [] ∧ is_py_space c then [] else c :: r

/-- Python `str.strip()`: drop leading then trailing whitespace. -/
def py_strip (cs : List Char) : List Char :=
  drop_trailing_ws (cs.dropWhile is_py_space)

/-- `re.sub(r'\s+', ' ', ·)`: each maximal whitespace run becomes a single
space.  The flag records whether the previous character was whitespace. -/
def collapse_ws_aux : List Char → Bool → List Char
  | [], _ => []
  | c :: rest, prev =>
    if is_py_space c then
      if prev then collapse_ws_aux rest true
      else ' ' :: collapse_ws_aux rest true
    else c :: collapse_ws_aux rest false

/-- `re.sub(r'\s+', ' ', ·)` over a whole string. -/
def collapse_ws (cs : List Char) : List Char := collapse_ws_aux cs false

/-- Match a literal pattern at the head, returning the remainder. -/
def match_lit : List Char → List Char → Option (List Char)
  | [], cs => some cs
  | _ :: _, [] => none
  | p :: ps, c :: cs => if c = p then match_lit ps cs else none

/-- Match `\s+` greedily (at least one whitespace character). -/
def match_ws1 (cs : List Char) : Option (List Char) :=
  match cs with
  | c :: rest => if is_py_space c then some (rest.dropWhile is_py_space) else none
  | [] => none

/-- Match the regex `\.?` greedily. -/
def match_opt_dot (cs : List Char) : List Char :=
  match cs with
  | '.' :: rest => rest
  | _ => cs

/-- The alternation `(honourable|hon\.?|mr\.?|mrs\.?|ms\.?|mme\.?|m\.?)`,
tried in source order; the first locally matching alternative wins because
the `\s*` that follows always succeeds. -/
def match_title_alt (cs : List Char) : Option (List Char) :=
  (match_lit "honourable".toList cs) <|>
  ((match_lit "hon".toList cs).map match_opt_dot) <|>
  ((match_lit "mr".toList cs).map match_opt_dot) <|>
  ((match_lit "mrs".toList cs).map match_opt_dot) <|>
  ((match_lit "ms".toList cs).map match_opt_dot) <|>
  ((match_lit "mme".toList cs).map match_opt_dot) <|>
  ((match_lit "m".toList cs).map match_opt_dot)

/-- The anchored prefix `(the\s+)?(right\s+)?(title-alternation)`, with the
regex backtracking order of the two greedy optional groups. -/
def match_title_prefix (cs : List Char) : Option (List Char) :=
  (do
    let r1 ← (match_lit "the".toList cs).bind match_ws1
    (do
      let r2 ← (match_lit "right".toList r1).bind match_ws1
      match_title_alt r2) <|> match_title_alt r1) <|>
  (do
    let r2 ← (match_lit "right".toList cs).bind match_ws1
    match_title_alt r2) <|>
  match_title_alt cs

/-- One application of
`re.sub(r'^(the\s+)?(right\s+)?(honourable|hon\.?|mr\.?|...)\s*', '', ·)`:
anchored, so at most one substitution happens; the trailing `\s*` is
consumed greedily. -/
def strip_title_once (cs : List Char) : List Char :=
  match match_title_prefix cs with
  | some rest => rest.dropWhile is_py_space
  | none => cs

/-- Embedding of `_normalize_name` (speaker_mapper.py lines 161-174):
unidecode, lowercase + strip, one anchored title substitution, whitespace
collapse + strip. -/
def normalize_chars (cs : List Char) : List Char :=
  py_strip (collapse_ws (strip_title_once
    (py_strip (cs.map fun c => ascii_lower (unidecode_char c)))))

/-- `_normalize_name` on Python `str`. -/
def normalize_name (s : String) : String :=
  String.mk (normalize_chars s.data)

end Pipeline

namespace Pipeline

/-- The per-character phase of `_normalize_name`: accent strip then
lowercase. -/
def char_norm (c : Char) : Char := ascii_lower (unidecode_char c)

/-- Table lookup yields a pair of the table. -/
theorem tbl_lookup_mem {t : List (Char × Char)} {c d : Char}
    (h : tbl_lookup t c = some d) : (c, d) ∈ t := by
  induction t with
  | nil => simp [tbl_lookup] at h
  | cons p rest ih =>
    unfold tbl_lookup at h
    split at h
    · rename_i heq
      cases h
      exact List.mem_cons.mpr (Or.inl (by rw [heq]))
    · exact List.mem_cons_of_mem _ (ih h)

/-- A character outside the table's key column looks up to `none`. -/
theorem tbl_lookup_none {t : List (Char × Char)} {c : Char}
    (h : ∀ p ∈ t, p.1 ≠ c) : tbl_lookup t c = none := by
  induction t with
  | nil => rfl
  | cons p rest ih =>
    unfold tbl_lookup
    rw [if_neg (fun he => h p (List.mem_cons_self _ _) he.symm)]
    exact ih fun q hq => h q (List.mem_cons_of_mem _ hq)

/-- The per-character normalisation is idempotent. -/
theorem char_norm_idem (c : Char) : char_norm (char_norm c) = char_norm c := by
  have haccv : ∀ p ∈ accent_table, p.2.toNat ≤ 127 := by decide
  have huppv : ∀ p ∈ upper_table,
      p.2.toNat ≤ 127 ∧ tbl_lookup upper_table p.2 = none := by decide
  have huppk : ∀ p ∈ upper_table, p.1.toNat ≤ 127 := by decide
  -- a character that is ASCII and not an upper-table key is a fixed point
  have hfix : ∀ a : Char, a.toNat ≤ 127 → tbl_lookup upper_table a = none →
      char_norm a = a := by
    intro a h1 h2
    unfold char_norm unidecode_char ascii_lower
    rw [if_pos h1, h2]
  have hstep : ∀ a : Char, a.toNat ≤ 127 → char_norm (ascii_lower a) = ascii_lower a := by
    intro a h1
    unfold ascii_lower
    rcases hl : tbl_lookup upper_table a with _ | d
    · exact hfix a h1 hl
    · have hd := huppv _ (tbl_lookup_mem hl)
      exact hfix d hd.1 hd.2
  unfold char_norm unidecode_char
  by_cases h1 : c.toNat ≤ 127
  · rw [if_pos h1]
    exact hstep c h1
  · rw [if_neg h1]
    rcases ha : tbl_lookup accent_table c with _ | d
    · -- unmapped non-ASCII: lower leaves it alone, so it is fixed
      have hupnone : tbl_lookup upper_table c = none := by
        refine tbl_lookup_none fun p hp he => ?_
        exact h1 (he ▸ huppk p hp)
      show char_norm (ascii_lower c) = ascii_lower c
      unfold ascii_lower
      rw [hupnone]
      show char_norm c = c
      unfold char_norm unidecode_char
      rw [if_neg h1, ha]
      unfold ascii_lower
      rw [hupnone]
    · have hd := haccv _ (tbl_lookup_mem ha)
      exact hstep d hd

end Pipeline

namespace Pipeline

/-- Unfolding equation of `drop_trailing_ws` on a cons cell. -/
theorem drop_trailing_ws_cons (c : Char) (rest : List Char) :
    drop_trailing_ws (c :: rest)
      = if drop_trailing_ws rest = [] ∧ is_py_space c = true then []
        else c :: drop_trailing_ws rest := rfl

/-- Dropping a leading-whitespace prefix twice is the same as once. -/
theorem dropWhile_ws_idem (l : List Char) :
    (l.dropWhile is_py_space).dropWhile is_py_space
      = l.dropWhile is_py_space := by
  induction l with
  | nil => rfl
  | cons c rest ih =>
    by_cases h : is_py_space c
    · rw [List.dropWhile_cons_of_pos h, ih]
    · rw [List.dropWhile_cons_of_neg h, List.dropWhile_cons_of_neg h]

/-- `drop_trailing_ws` is idempotent. -/
theorem drop_trailing_ws_idem (l : List Char) :
    drop_trailing_ws (drop_trailing_ws l) = drop_trailing_ws l := by
  induction l with
  | nil => rfl
  | cons c rest ih =>
    rw [drop_trailing_ws_cons]
    by_cases h : drop_trailing_ws rest = [] ∧ is_py_space c = true
    · rw [if_pos h]
      rfl
    · rw [if_neg h, drop_trailing_ws_cons, ih, if_neg h]

/-- `drop_trailing_ws` keeps the head when the result is nonempty. -/
theorem drop_trailing_ws_head (l : List Char) :
    drop_trailing_ws l = [] ∨
      ∃ rest, drop_trailing_ws l = l.head?.getD ' ' :: rest := by
  cases l with
  | nil => exact Or.inl rfl
  | cons c r =>
    rw [drop_trailing_ws_cons]
    by_cases h : drop_trailing_ws r = [] ∧ is_py_space c = true
    · rw [if_pos h]
      exact Or.inl rfl
    · rw [if_neg h]
      exact Or.inr ⟨drop_trailing_ws r, by simp⟩

/-- `py_strip` is idempotent. -/
theorem py_strip_idem (l : List Char) : py_strip (py_strip l) = py_strip l := by
  unfold py_strip
  have h1 : ((drop_trailing_ws (l.dropWhile is_py_space)).dropWhile is_py_space)
      = drop_trailing_ws (l.dropWhile is_py_space) := by
    rcases drop_trailing_ws_head (l.dropWhile is_py_space) with h | ⟨rest, hd⟩
    · rw [h]
      rfl
    · cases hl : l.dropWhile is_py_space with
      | nil => rfl
      | cons a r =>
        rw [hl] at hd
        simp only [List.head?_cons, Option.getD_some] at hd
        have ha : is_py_space a = false := by
          have h2 := dropWhile_ws_idem l
          rw [hl] at h2
          by_cases hsp : is_py_space a
          · rw [List.dropWhile_cons_of_pos hsp] at h2
            have hlen := congrArg List.length h2
            have h3 := (List.dropWhile_sublist (p := is_py_space) (l := r)).length_le
            simp at hlen
            omega
          · simpa using hsp
        rw [hd]
        exact List.dropWhile_cons_of_neg (by simp [ha])
  rw [h1, drop_trailing_ws_idem]

end Pipeline

namespace Pipeline

/-- Unfolding equation of `collapse_ws_aux` on a cons cell. -/
theorem collapse_ws_aux_cons (c : Char) (rest : List Char) (b : Bool) :
    collapse_ws_aux (c :: rest) b
      = if is_py_space c then
          (if b then collapse_ws_aux rest true
           else ' ' :: collapse_ws_aux rest true)
        else c :: collapse_ws_aux rest false := rfl

/-- No two adjacent plain spaces. -/
def no_adj : List Char → Bool
  | c1 :: c2 :: rest => !(c1 = ' ' && c2 = ' ') && no_adj (c2 :: rest)
  | _ => true

/-- Every whitespace character is a plain space. -/
def only_plain_ws (l : List Char) : Prop :=
  ∀ c ∈ l, is_py_space c = true → c = ' '

/-- Unfolding of `no_adj` on a cons cell. -/
theorem no_adj_cons (c : Char) (l : List Char) :
    no_adj (c :: l) = true ↔
      (∀ d, l.head? = some d → ¬(c = ' ' ∧ d = ' ')) ∧ no_adj l = true := by
  cases l with
  | nil => simp [no_adj]
  | cons d rest =>
    show (!(decide (c = ' ') && decide (d = ' ')) && no_adj (d :: rest)) = true ↔ _
    rw [Bool.and_eq_true]
    constructor
    · intro ⟨h1, h2⟩
      refine ⟨fun e he hc => ?_, h2⟩
      injection he with he
      subst he
      rw [hc.1, hc.2] at h1
      simp at h1
    · intro ⟨h1, h2⟩
      refine ⟨?_, h2⟩
      have hnd := h1 d rfl
      by_cases h3 : c = ' '
      · by_cases h4 : d = ' '
        · exact absurd ⟨h3, h4⟩ hnd
        · simp [h4]
      · simp [h3]

/-- The collapse helper with `prev = true` never emits a leading space. -/
theorem collapse_ws_aux_true_head (l : List Char) :
    ∀ d, (collapse_ws_aux l true).head? = some d → d ≠ ' ' := by
  induction l with
  | nil => intro d h; simp [collapse_ws_aux] at h
  | cons c rest ih =>
    intro d h
    unfold collapse_ws_aux at h
    split at h
    · exact ih d h
    · rename_i hc
      simp only [List.head?_cons, Option.some.injEq] at h
      intro he
      apply hc
      rw [h, he]
      decide

/-- Collapse output never has two adjacent spaces. -/
theorem collapse_ws_aux_no_adj (l : List Char) (b : Bool) :
    no_adj (collapse_ws_aux l b) = true := by
  induction l generalizing b with
  | nil => rfl
  | cons c rest ih =>
    unfold collapse_ws_aux
    split
    · split
      · exact ih true
      · rw [no_adj_cons]
        exact ⟨fun d hd hc => collapse_ws_aux_true_head rest d hd hc.2, ih true⟩
    · rw [no_adj_cons]
      refine ⟨fun d hd hc => ?_, ih false⟩
      rename_i hcs
      exact hcs (by rw [hc.1]; decide)

/-- Collapse output uses only plain spaces as whitespace. -/
theorem collapse_ws_aux_only_plain (l : List Char) (b : Bool) :
    only_plain_ws (collapse_ws_aux l b) := by
  induction l generalizing b with
  | nil => intro c hc; simp [collapse_ws_aux] at hc
  | cons c rest ih =>
    intro x hx hsp
    unfold collapse_ws_aux at hx
    split at hx
    · split at hx
      · exact ih true x hx hsp
      · rcases List.mem_cons.mp hx with h | h
        · exact h
        · exact ih true x h hsp
    · rcases List.mem_cons.mp hx with h | h
      · rename_i hcs
        exact absurd (h ▸ hsp) (by simpa using hcs)
      · exact ih false x h hsp

/-- On canonical whitespace (only plain spaces, none adjacent), the
collapse pass is the identity. -/
theorem collapse_ws_aux_eq_self (l : List Char)
    (hplain : only_plain_ws l) (hadj : no_adj l = true) :
    collapse_ws_aux l false = l ∧
      (l.head? ≠ some ' ' → collapse_ws_aux l true = l) := by
  induction l with
  | nil => exact ⟨rfl, fun _ => rfl⟩
  | cons c rest ih =>
    have hplain' : only_plain_ws rest :=
      fun x hx => hplain x (List.mem_cons_of_mem _ hx)
    have hadj' : no_adj rest = true := ((no_adj_cons c rest).mp hadj).2
    have ihr := ih hplain' hadj'
    by_cases hc : is_py_space c
    · have hceq : c = ' ' := hplain c (List.mem_cons_self _ _) hc
      constructor
      · rw [collapse_ws_aux_cons, if_pos hc, if_neg (by simp)]
        have hhead : rest.head? ≠ some ' ' := by
          intro hh
          exact ((no_adj_cons c rest).mp hadj).1 ' ' hh ⟨hceq, rfl⟩
        rw [ihr.2 hhead, hceq]
      · intro hne
        exact absurd (by rw [hceq]; rfl : (c :: rest).head? = some ' ') hne
    · have hrw : ∀ b : Bool, collapse_ws_aux (c :: rest) b
          = c :: collapse_ws_aux rest false := by
        intro b
        rw [collapse_ws_aux_cons, if_neg hc]
      exact ⟨by rw [hrw, ihr.1], fun _ => by rw [hrw, ihr.1]⟩

end Pipeline

namespace Pipeline

/-- `drop_trailing_ws` yields a prefix of its input. -/
theorem drop_trailing_ws_prefix_self (l : List Char) :
    drop_trailing_ws l <+: l := by
  induction l with
  | nil => exact List.prefix_refl _
  | cons c rest ih =>
    rw [drop_trailing_ws_cons]
    split
    · exact List.nil_prefix
    · exact List.cons_prefix_cons.mpr ⟨rfl, ih⟩

/-- Members of the stripped string are members of the input. -/
theorem mem_py_strip {x : Char} {l : List Char} (h : x ∈ py_strip l) :
    x ∈ l := by
  unfold py_strip at h
  exact (List.dropWhile_sublist is_py_space).subset
    ((drop_trailing_ws_prefix_self _).sublist.subset h)

/-- Members of the collapse output are members of the input or a plain
space. -/
theorem mem_collapse_ws_aux {x : Char} {l : List Char} {b : Bool}
    (h : x ∈ collapse_ws_aux l b) : x ∈ l ∨ x = ' ' := by
  induction l generalizing b with
  | nil => simp [collapse_ws_aux] at h
  | cons c rest ih =>
    rw [collapse_ws_aux_cons] at h
    split at h
    · split at h
      · rcases ih h with h1 | h2
        · exact Or.inl (List.mem_cons_of_mem _ h1)
        · exact Or.inr h2
      · rcases List.mem_cons.mp h with h1 | h1
        · exact Or.inr h1
        · rcases ih h1 with h2 | h2
          · exact Or.inl (List.mem_cons_of_mem _ h2)
          · exact Or.inr h2
    · rcases List.mem_cons.mp h with h1 | h1
      · exact Or.inl (h1 ▸ List.mem_cons_self _ _)
      · rcases ih h1 with h2 | h2
        · exact Or.inl (List.mem_cons_of_mem _ h2)
        · exact Or.inr h2

/-- A literal match returns a suffix of the input. -/
theorem match_lit_suffix {ps cs r : List Char} (h : match_lit ps cs = some r) :
    r <:+ cs := by
  induction ps generalizing cs with
  | nil =>
    unfold match_lit at h
    cases h
    exact List.suffix_refl _
  | cons p ps ih =>
    cases cs with
    | nil => simp [match_lit] at h
    | cons c cs' =>
      unfold match_lit at h
      split at h
      · exact (ih h).trans (List.suffix_cons _ _)
      · cases h

/-- A whitespace-run match returns a suffix of the input. -/
theorem match_ws1_suffix {cs r : List Char} (h : match_ws1 cs = some r) :
    r <:+ cs := by
  unfold match_ws1 at h
  split at h
  · rename_i c rest
    split at h
    · cases h
      exact (List.dropWhile_suffix _).trans (List.suffix_cons _ _)
    · cases h
  · cases h

/-- The optional-dot match returns a suffix of the input. -/
theorem match_opt_dot_suffix (cs : List Char) : match_opt_dot cs <:+ cs := by
  unfold match_opt_dot
  split
  · exact List.suffix_cons _ _
  · exact List.suffix_refl _

/-- An `Option` alternation succeeding means one branch succeeded. -/
theorem option_orElse_eq_some {β : Type} {a : Option β} {b : Option β}
    {r : β} (h : (a <|> b) = some r) : a = some r ∨ b = some r := by
  cases a with
  | none => exact Or.inr (by simpa using h)
  | some v => exact Or.inl (by simpa using h)

/-- The title alternation returns a suffix of the input. -/
theorem match_title_alt_suffix {cs r : List Char}
    (h : match_title_alt cs = some r) : r <:+ cs := by
  unfold match_title_alt at h
  rcases option_orElse_eq_some h with h1 | h1
  · exact match_lit_suffix h1
  · rcases option_orElse_eq_some h1 with h2 | h2
    swap
    · rcases option_orElse_eq_some h2 with h3 | h3
      swap
      · rcases option_orElse_eq_some h3 with h4 | h4
        swap
        · rcases option_orElse_eq_some h4 with h5 | h5
          swap
          · rcases option_orElse_eq_some h5 with h6 | h6
            swap
            · rcases Option.map_eq_some'.mp h6 with ⟨v, hv, hr⟩
              exact hr ▸ (match_opt_dot_suffix v).trans (match_lit_suffix hv)
            · rcases Option.map_eq_some'.mp h6 with ⟨v, hv, hr⟩
              exact hr ▸ (match_opt_dot_suffix v).trans (match_lit_suffix hv)
          · rcases Option.map_eq_some'.mp h5 with ⟨v, hv, hr⟩
            exact hr ▸ (match_opt_dot_suffix v).trans (match_lit_suffix hv)
        · rcases Option.map_eq_some'.mp h4 with ⟨v, hv, hr⟩
          exact hr ▸ (match_opt_dot_suffix v).trans (match_lit_suffix hv)
      · rcases Option.map_eq_some'.mp h3 with ⟨v, hv, hr⟩
        exact hr ▸ (match_opt_dot_suffix v).trans (match_lit_suffix hv)
    · rcases Option.map_eq_some'.mp h2 with ⟨v, hv, hr⟩
      exact hr ▸ (match_opt_dot_suffix v).trans (match_lit_suffix hv)

/-- The whole title prefix match returns a suffix of the input. -/
theorem match_title_prefix_suffix {cs r : List Char}
    (h : match_title_prefix cs = some r) : r <:+ cs := by
  unfold match_title_prefix at h
  rcases option_orElse_eq_some h with h1 | h1
  · rcases Option.bind_eq_some.mp h1 with ⟨r1, hr1, h2⟩
    have hs1 : r1 <:+ cs := by
      rcases Option.bind_eq_some.mp hr1 with ⟨r0, hr0, hws⟩
      exact (match_ws1_suffix hws).trans (match_lit_suffix hr0)
    rcases option_orElse_eq_some h2 with h3 | h3
    · rcases Option.bind_eq_some.mp h3 with ⟨r2, hr2, h4⟩
      have hs2 : r2 <:+ r1 := by
        rcases Option.bind_eq_some.mp hr2 with ⟨r0, hr0, hws⟩
        exact (match_ws1_suffix hws).trans (match_lit_suffix hr0)
      exact ((match_title_alt_suffix h4).trans hs2).trans hs1
    · exact (match_title_alt_suffix h3).trans hs1
  · rcases option_orElse_eq_some h1 with h2 | h2
    · rcases Option.bind_eq_some.mp h2 with ⟨r2, hr2, h4⟩
      have hs2 : r2 <:+ cs := by
        rcases Option.bind_eq_some.mp hr2 with ⟨r0, hr0, hws⟩
        exact (match_ws1_suffix hws).trans (match_lit_suffix hr0)
      exact (match_title_alt_suffix h4).trans hs2
    · exact match_title_alt_suffix h2

/-- Members of the title-stripped string are members of the input. -/
theorem mem_strip_title_once {x : Char} {cs : List Char}
    (h : x ∈ strip_title_once cs) : x ∈ cs := by
  unfold strip_title_once at h
  split at h
  · rename_i r hr
    exact (match_title_prefix_suffix hr).sublist.subset
      ((List.dropWhile_suffix _).sublist.subset h)
  · exact h

end Pipeline

namespace Pipeline

/-- `no_adj` holds on any suffix. -/
theorem no_adj_append_right (l1 l2 : List Char)
    (h : no_adj (l1 ++ l2) = true) : no_adj l2 = true := by
  induction l1 with
  | nil => exact h
  | cons c rest ih =>
    rw [List.cons_append] at h
    exact ih ((no_adj_cons _ _).mp h).2

/-- `no_adj` holds on any prefix. -/
theorem no_adj_prefix {l1 l2 : List Char} (hp : l1 <+: l2)
    (h : no_adj l2 = true) : no_adj l1 = true := by
  obtain ⟨r, hr⟩ := hp
  subst hr
  induction l1 with
  | nil => rfl
  | cons c rest ih =>
    rw [List.cons_append] at h
    have h2 := (no_adj_cons c (rest ++ r)).mp h
    rw [no_adj_cons]
    refine ⟨fun d hd => ?_, ih h2.2⟩
    refine h2.1 d ?_
    cases rest with
    | nil => simp at hd
    | cons e rest' =>
      simpa using hd
  
/-- `no_adj` survives `py_strip`. -/
theorem no_adj_py_strip (l : List Char) (h : no_adj l = true) :
    no_adj (py_strip l) = true := by
  unfold py_strip
  have h1 : no_adj (l.dropWhile is_py_space) = true := by
    obtain ⟨r, hr⟩ := List.dropWhile_suffix (l := l) (p := is_py_space)
    exact no_adj_append_right r _ (by rw [hr]; exact h)
  exact no_adj_prefix (drop_trailing_ws_prefix_self _) h1

/-- `only_plain_ws` survives `py_strip`. -/
theorem only_plain_py_strip (l : List Char) (h : only_plain_ws l) :
    only_plain_ws (py_strip l) :=
  fun x hx => h x (mem_py_strip hx)

/-- Every character of the normalised output is fixed by the
per-character phase. -/
theorem normalize_chars_fixed (cs : List Char) :
    ∀ x ∈ normalize_chars cs, char_norm x = x := by
  intro x hx
  unfold normalize_chars at hx
  have h1 := mem_py_strip hx
  rcases mem_collapse_ws_aux h1 with h2 | h2
  · have h3 := mem_py_strip (mem_strip_title_once h2)
    rcases List.mem_map.mp h3 with ⟨c, _, hc⟩
    rw [← hc]
    exact char_norm_idem c
  · rw [h2]
    decide

/-- The per-character phase is the identity on normalised output. -/
theorem map_char_norm_normalize (cs : List Char) :
    (normalize_chars cs).map (fun c => ascii_lower (unidecode_char c))
      = normalize_chars cs := by
  calc (normalize_chars cs).map (fun c => ascii_lower (unidecode_char c))
      = (normalize_chars cs).map id :=
        List.map_congr_left fun x hx => normalize_chars_fixed cs x hx
    _ = normalize_chars cs := List.map_id _

/-- `py_strip` is the identity on normalised output. -/
theorem py_strip_normalize (cs : List Char) :
    py_strip (normalize_chars cs) = normalize_chars cs := by
  unfold normalize_chars
  exact py_strip_idem _

/-- The whitespace collapse is the identity on normalised output. -/
theorem collapse_ws_normalize (cs : List Char) :
    collapse_ws (normalize_chars cs) = normalize_chars cs := by
  have hplain : only_plain_ws (normalize_chars cs) := by
    unfold normalize_chars
    exact only_plain_py_strip _ (fun x hx => collapse_ws_aux_only_plain _ _ x hx)
  have hadj : no_adj (normalize_chars cs) = true := by
    unfold normalize_chars
    exact no_adj_py_strip _ (collapse_ws_aux_no_adj _ _)
  exact (collapse_ws_aux_eq_self _ hplain hadj).1

/-- A second run of `normalize_chars` only applies one more title strip
(followed by re-canonicalisation, which is the identity) — hence it is the
identity whenever the first output carries no further leading
honorific. -/
theorem normalize_chars_idem_of_title_fixed (cs : List Char)
    (h : strip_title_once (normalize_chars cs) = normalize_chars cs) :
    normalize_chars (normalize_chars cs) = normalize_chars cs := by
  have key : ∀ y : List Char, (∀ x ∈ y, char_norm x = x) → py_strip y = y →
      collapse_ws y = y → strip_title_once y = y → normalize_chars y = y := by
    intro y h1 h2 h3 h4
    unfold normalize_chars
    have hm : y.map (fun c => ascii_lower (unidecode_char c)) = y := by
      calc y.map (fun c => ascii_lower (unidecode_char c))
          = y.map id := List.map_congr_left fun x hx => h1 x hx
        _ = y := List.map_id y
    rw [hm, h2, h4, h3, h2]
  exact key (normalize_chars cs) (normalize_chars_fixed cs)
    (py_strip_normalize cs) (collapse_ws_normalize cs) h

end Pipeline

/-! ## C10: idempotence of `_normalize_name` -/

/-- C10 counterexample: `_normalize_name` strips only one leading
honorific per application (the substitution regex is anchored and matches
a single title), so on the stacked honorific `Right Hon. Mr. Smith` the
first application gives `mr. smith` and a second gives `smith` — the
function is not idempotent. -/
theorem C10_normalize_name_not_idempotent_counterexample :
    Pipeline.normalize_name "Right Hon. Mr. Smith" = "mr. smith" ∧
    Pipeline.normalize_name (Pipeline.normalize_name "Right Hon. Mr. Smith")
      = "smith" ∧
    Pipeline.normalize_name (Pipeline.normalize_name "Right Hon. Mr. Smith")
      ≠ Pipeline.normalize_name "Right Hon. Mr. Smith" := by
  refine ⟨rfl, rfl, ?_⟩
  intro h
  rw [show Pipeline.normalize_name (Pipeline.normalize_name "Right Hon. Mr. Smith")
      = "smith" from rfl,
    show Pipeline.normalize_name "Right Hon. Mr. Smith" = "mr. smith" from rfl] at h
  exact absurd h (by decide)

/-- C10 amended: `_normalize_name` is idempotent exactly on names whose
normalised form no longer begins with an honorific: each application
strips at most one leading title, and the accent/case/whitespace phases
are already fixed on normalised output; on stacked honorifics such as
`Right Hon. Mr. Smith` a second application strips one more title. -/
theorem C10_normalize_name_idem_of_no_leading_title (s : String)
    (h : Pipeline.strip_title_once (Pipeline.normalize_name s).data
      = (Pipeline.normalize_name s).data) :
    Pipeline.normalize_name (Pipeline.normalize_name s)
      = Pipeline.normalize_name s := by
  unfold Pipeline.normalize_name at h ⊢
  exact congrArg String.mk (Pipeline.normalize_chars_idem_of_title_fixed _ h)

/-- Witness for C10 amended at a concrete input: `Smith` normalises to
`smith`, which starts with no honorific, and re-normalising is the
identity there. -/
theorem C10_normalize_name_idem_witness :
    Pipeline.normalize_name (Pipeline.normalize_name "Smith")
      = Pipeline.normalize_name "Smith" :=
  C10_normalize_name_idem_of_no_leading_title "Smith" (by decide)

namespace Pipeline

/-! ## Speaker identity store of the recogniser path
(`app/processing/speaker_mapper.py`, `_ensure_speaker_in_db`) -/

/-- A `debate_speakers` row as written by `_ensure_speaker_in_db` — note
it carries a `legislature_id` and no debate reference. -/
structure GlobalSpeakerRow where
  id : Nat
  legislature_id : Nat
  name : String
  name_normalized : String
  party : String
  role : String
deriving Repr, DecidableEq

/-- The speaker table slice plus the store's id generator. -/
structure SpeakerTableB where
  rows : List GlobalSpeakerRow
  next_id : Nat
deriving Repr, DecidableEq

/-- Embedding of `_ensure_speaker_in_db` (speaker_mapper.py lines
125-158): looks the speaker up by `(legislature_id, name_normalized)`; if
found, returns the existing row's id without touching its fields,
otherwise inserts a fresh row. -/
def ensure_speaker_in_db (legislature_id : Nat) (name party role : String)
    (db : SpeakerTableB) : SpeakerTableB × Nat :=
  let normalized := normalize_name name
  match db.rows.find? (fun r =>
      r.legislature_id = legislature_id ∧ r.name_normalized = normalized) with
  | some r => (db, r.id)
  | none =>
    let row : GlobalSpeakerRow :=
      { id := db.next_id, legislature_id := legislature_id, name := name,
        name_normalized := normalized, party := party, role := role }
    ({ rows := db.rows ++ [row], next_id := db.next_id + 1 }, db.next_id)

/-- An upsert keeps the key column's list unchanged or appends a fresh
key, so pairwise-distinct keys are preserved. -/
theorem upsert_by_nodup_keys {α κ : Type} [DecidableEq κ] (key : α → κ)
    (row : α) (t : List α) (hnd : (t.map key).Nodup) :
    ((upsert_by key row t).map key).Nodup := by
  unfold upsert_by
  split
  · have heq : (t.map fun r' => if key r' = key row then row else r').map key
        = t.map key := by
      rw [List.map_map]
      refine List.map_congr_left fun x hx => ?_
      by_cases h : key x = key row <;> simp [h]
    rw [heq]
    exact hnd
  · rename_i hany
    have hno : ∀ x ∈ t, ¬ key x = key row := by simpa using hany
    rw [List.map_append, List.map_singleton, List.nodup_append]
    refine ⟨hnd, List.nodup_singleton _, fun a ha => ?_⟩
    rcases List.mem_map.mp ha with ⟨x, hx, hkx⟩
    simp only [List.mem_singleton]
    intro he
    rw [he] at hkx
    exact hno x hx hkx

end Pipeline

/-! ## C7: speaker upsert keys -/

/-- First scraped speaker for the C7 counterexample. -/
def C7_sp1 : Pipeline.HansardSpeaker where
  name := "Mr. Smith"
  party := "LPC"
  riding := "Riverside"
  member_id := none
  province := "ON"
  member_url := "u"
  speech_count := 1

/-- Second scraped speaker for the C7 counterexample: a different raw
label with the same normalised name. -/
def C7_sp2 : Pipeline.HansardSpeaker where
  name := "Smith"
  party := "LPC"
  riding := "Riverside"
  member_id := none
  province := "ON"
  member_url := "u"
  speech_count := 1

/-- Speaker table after the scrape path upserts both labels for one
debate. -/
def C7_tbl : List Pipeline.SpeakerRow :=
  Pipeline.upsert_by (fun r : Pipeline.SpeakerRow => (r.debate_id, r.name))
    (Pipeline.speaker_row_of 1 C7_sp2)
    (Pipeline.upsert_by (fun r : Pipeline.SpeakerRow => (r.debate_id, r.name))
      (Pipeline.speaker_row_of 1 C7_sp1) [])

/-- Recogniser-path speaker store holding one Smith for legislature 1 with
party `LPC`. -/
def C7_dbB : Pipeline.SpeakerTableB where
  rows := [{ id := 0, legislature_id := 1, name := "Smith",
             name_normalized := "smith", party := "LPC", role := "member" }]
  next_id := 1

/-- C7 counterexample: the transcript-scraper path keys on the raw name,
so `Mr. Smith` and `Smith` — equal after normalisation — yield two speaker
rows in the same debate, refuting "at most one speaker row per normalised
name within a debate"; and the recogniser path, on a conflict, returns the
existing row without updating its fields (party stays `LPC` despite the
new write carrying `CPC`), refuting last-writer-wins. -/
theorem C7_speaker_upsert_counterexample :
    C7_tbl.length = 2 ∧
    (∀ r ∈ C7_tbl, r.debate_id = 1) ∧
    Pipeline.normalize_name "Mr. Smith" = Pipeline.normalize_name "Smith" ∧
    Pipeline.ensure_speaker_in_db 1 "Smith" "CPC" "minister" C7_dbB
      = (C7_dbB, 0) := by
  refine ⟨rfl, by decide, rfl, rfl⟩

/-- C7 amended: path (a) upserts keyed on `(debate, raw name)` with
last-writer-wins, so a debate holds at most one row per raw name (not per
normalised name); path (b) keys on `(legislature, normalised_name)` — not
on the debate — and on conflict returns the existing row without updating
any field; a later call for the same legislature and name (from any
debate) reuses the same row. -/
theorem C7_speaker_upsert_path_keys
    (did : Nat) (sp : Pipeline.HansardSpeaker) (t : List Pipeline.SpeakerRow)
    (legId : Nat) (name party role party2 role2 : String)
    (db : Pipeline.SpeakerTableB) (r : Pipeline.GlobalSpeakerRow) :
    ((t.map fun x : Pipeline.SpeakerRow => (x.debate_id, x.name)).Nodup →
      ((Pipeline.upsert_by (fun x : Pipeline.SpeakerRow => (x.debate_id, x.name))
          (Pipeline.speaker_row_of did sp) t).map
        fun x : Pipeline.SpeakerRow => (x.debate_id, x.name)).Nodup)
    ∧
    ((db.rows.find? fun x =>
        x.legislature_id = legId ∧
          x.name_normalized = Pipeline.normalize_name name) = some r →
      Pipeline.ensure_speaker_in_db legId name party role db = (db, r.id))
    ∧
    ((db.rows.find? fun x =>
        x.legislature_id = legId ∧
          x.name_normalized = Pipeline.normalize_name name) = none →
      (Pipeline.ensure_speaker_in_db legId name party role db).1.rows
        = db.rows ++
          [{ id := db.next_id, legislature_id := legId, name := name,
             name_normalized := Pipeline.normalize_name name, party := party,
             role := role }] ∧
      Pipeline.ensure_speaker_in_db legId name party2 role2
          (Pipeline.ensure_speaker_in_db legId name party role db).1
        = ((Pipeline.ensure_speaker_in_db legId name party role db).1,
            db.next_id)) := by
  refine ⟨fun hnd => Pipeline.upsert_by_nodup_keys _ _ t hnd, ?_, ?_⟩
  · intro hfind
    simp only [Pipeline.ensure_speaker_in_db]
    rw [hfind]
  · intro hnone
    have hdb1 : Pipeline.ensure_speaker_in_db legId name party role db
        = ({ rows := db.rows ++
              [{ id := db.next_id, legislature_id := legId, name := name,
                 name_normalized := Pipeline.normalize_name name,
                 party := party, role := role }],
             next_id := db.next_id + 1 }, db.next_id) := by
      simp only [Pipeline.ensure_speaker_in_db]
      rw [hnone]
    refine ⟨by rw [hdb1], ?_⟩
    rw [hdb1]
    simp only [Pipeline.ensure_speaker_in_db]
    rw [List.find?_append, hnone, Option.none_or]
    have hfound : List.find? (fun x : Pipeline.GlobalSpeakerRow =>
        decide (x.legislature_id = legId ∧
          x.name_normalized = Pipeline.normalize_name name))
        [{ id := db.next_id, legislature_id := legId, name := name,
           name_normalized := Pipeline.normalize_name name, party := party,
           role := role }]
        = some
          { id := db.next_id, legislature_id := legId, name := name,
            name_normalized := Pipeline.normalize_name name, party := party,
            role := role } := by
      simp [List.find?]
    rw [hfound]

/-- Witness for C7 amended at a concrete input: inserting `Mr. Lee` into
an empty store creates one row, and a second call for the same legislature
reuses its id. -/
theorem C7_speaker_upsert_path_keys_witness :
    Pipeline.ensure_speaker_in_db 1 "Mr. Lee" "NDP" "member"
        (Pipeline.ensure_speaker_in_db 1 "Mr. Lee" "LPC" "member"
          ⟨[], 0⟩).1
      = ((Pipeline.ensure_speaker_in_db 1 "Mr. Lee" "LPC" "member"
          ⟨[], 0⟩).1, 0) := by
  exact ((C7_speaker_upsert_path_keys 1 C7_sp1 [] 1 "Mr. Lee" "LPC" "member"
    "NDP" "member" ⟨[], 0⟩
    ⟨0, 1, "x", "y", "p", "r"⟩).2.2 (by rfl)).2

namespace Pipeline

/-! ## Contribution extraction
(`app/processing/contribution_extractor.py`) -/

/-- A recogniser segment (`{"text", "start", "end"}`); times as `ℚ`. -/
structure Segment where
  text : String
  start : ℚ
  «end» : ℚ
deriving Repr, DecidableEq

/-- A transcript record with its segments and language. -/
structure Transcript where
  segments : List Segment
  language : String
deriving Repr, DecidableEq

/-- A contribution dict as built by `_build_contribution`. -/
structure Contribution where
  debate_id : String
  speaker_id : Option String
  speaker_name_raw : Option String
  start_time_seconds : ℚ
  end_time_seconds : ℚ
  text : String
  language : String
  sequence_order : Nat
  text_fr : Option String
deriving Repr, DecidableEq

/-- Count of maximal non-whitespace runs: `len(s.split())`. -/
def word_count_aux : List Char → Bool → Nat
  | [], _ => 0
  | c :: rest, inWord =>
    if is_py_space c then word_count_aux rest false
    else (if inWord then 0 else 1) + word_count_aux rest true

/-- `len(s.split())` for a Python string. -/
def py_word_count (s : String) : Nat := word_count_aux s.data false

/-- Round a rational to an integer half-to-even — Python's `round`. -/
def round_half_even (q : ℚ) : ℤ :=
  if q - ⌊q⌋ < 1/2 then ⌊q⌋
  else if q - ⌊q⌋ > 1/2 then ⌊q⌋ + 1
  else if ⌊q⌋ % 2 = 0 then ⌊q⌋ else ⌊q⌋ + 1

/-- Python `round(x, 2)`. -/
def py_round2 (q : ℚ) : ℚ := (round_half_even (q * 100) : ℚ) / 100

/-- ASCII upper-case letter, the regex class `[A-Z]`. -/
def is_ascii_upper (c : Char) : Bool := 65 ≤ c.toNat && c.toNat ≤ 90

/-- Try the name-colon pattern with exactly `k` characters in `[^:]{2,40}`:
the next char must be `:` followed by one whitespace. -/
def name_colon_try_k (body : List Char) (k : Nat) : Option (List Char) :=
  let pre := body.take k
  if pre.length = k ∧ pre.all (fun c => c ≠ ':') then
    match body.drop k with
    | ':' :: c2 :: _ => if is_py_space c2 then some pre else none
    | _ => none
  else none

/-- Greedy scan of `[^:]{2,40}` from the longest length down. -/
def name_colon_search : List Char → Nat → Option (List Char)
  | _, 0 => none
  | body, Nat.succ n =>
    (name_colon_try_k body (n + 2)) <|> name_colon_search body n

/-- The regex `^([A-Z][^:]{2,40}):\s` of
`_extract_speaker_name_from_segment`, returning `group(1).strip()`. -/
def extract_speaker_name_chars (text : List Char) : Option String :=
  match text with
  | [] => none
  | c :: body =>
    if is_ascii_upper c then
      match name_colon_search body 39 with
      | some pre => some (String.mk (py_strip (c :: pre)))
      | none => none
    else none

/-- `_extract_speaker_name_from_segment` (contribution_extractor.py lines
136-144). -/
def extract_speaker_name_from_segment (seg : Segment) : Option String :=
  extract_speaker_name_chars seg.text.data

/-- `_build_contribution` (contribution_extractor.py lines 97-133): joins
the stripped texts of the grouped segments, drops empty groups and groups
of fewer than three words, and rounds the boundary times to 2 decimals. -/
def build_contribution (debate_id : String)
    (speaker_id speaker_name_raw : Option String) (segments : List Segment)
    (language : String) (sequence_order : Nat) : Option Contribution :=
  if segments = [] then none
  else
    let text_parts := segments.filterMap fun s =>
      if s.text ≠ "" then some (String.mk (py_strip s.text.data)) else none
    if text_parts = [] then none
    else
      let full_text := String.intercalate " " text_parts
      if py_word_count full_text < 3 then none
      else some
        { debate_id := debate_id, speaker_id := speaker_id,
          speaker_name_raw := speaker_name_raw,
          start_time_seconds := py_round2 ((segments.head?.map (·.start)).getD 0),
          end_time_seconds := py_round2 ((segments.getLast?.map (·.«end»)).getD 0),
          text := full_text, language := language,
          sequence_order := sequence_order, text_fr := none }

/-- The grouping loop of `extract_contributions` (lines 48-82): flushes a
contribution whenever the mapped speaker changes, incrementing
`sequence_order` only when a contribution was actually appended. -/
def extract_loop (mapping : Nat → Option String) (debate_id language : String) :
    List (Nat × Segment) → Option String → Option String → List Segment →
    Nat → List Contribution → List Contribution
  | [], cur, curRaw, curSegs, seq, acc =>
    if curSegs ≠ [] then
      match build_contribution debate_id cur curRaw curSegs language seq with
      | some c => acc ++ [c]
      | none => acc
    else acc
  | (idx, seg) :: rest, cur, curRaw, curSegs, seq, acc =>
    let sid := mapping idx
    if sid ≠ cur ∧ curSegs ≠ [] then
      match build_contribution debate_id cur curRaw curSegs language seq with
      | some c =>
        extract_loop mapping debate_id language rest sid
          (extract_speaker_name_from_segment seg) [seg] (seq + 1) (acc ++ [c])
      | none =>
        extract_loop mapping debate_id language rest sid
          (extract_speaker_name_from_segment seg) [seg] seq acc
    else
      extract_loop mapping debate_id language rest sid
        (extract_speaker_name_from_segment seg) (curSegs ++ [seg]) seq acc

/-- `_extract_secondary_language_text` for one contribution (lines
161-176): concatenate the stripped texts of overlapping secondary
segments into `text_fr`. -/
def add_fr (secondary_segments : List Segment) (c : Contribution) :
    Contribution :=
  let fr_parts := secondary_segments.filterMap fun seg =>
    if seg.start < c.end_time_seconds ∧ seg.«end» > c.start_time_seconds then
      some (String.mk (py_strip seg.text.data))
    else none
  if fr_parts ≠ [] then
    { c with text_fr := some (String.intercalate " " fr_parts) }
  else c

/-- `extract_contributions` (contribution_extractor.py lines 12-94). -/
def extract_contributions (transcripts : List Transcript)
    (mapping : Nat → Option String) (debate_id : String) : List Contribution :=
  match transcripts with
  | [] => []
  | primary :: restT =>
    if primary.segments = [] then []
    else
      let base := extract_loop mapping debate_id primary.language
        primary.segments.enum none none [] 0 []
      match restT with
      | [] => base
      | fr :: _ =>
        if fr.segments = [] then base else base.map (add_fr fr.segments)

end Pipeline

namespace Pipeline

/-- A built contribution carries the given `sequence_order` and at least
three words of text. -/
theorem build_contribution_props {did : String} {sid raw : Option String}
    {segs : List Segment} {lang : String} {seq : Nat} {c : Contribution}
    (h : build_contribution did sid raw segs lang seq = some c) :
    c.sequence_order = seq ∧ 3 ≤ py_word_count c.text := by
  simp only [build_contribution] at h
  split at h
  · cases h
  · split at h
    · cases h
    · split at h
      · cases h
      · rename_i hwc
        cases h
        exact ⟨rfl, Nat.le_of_not_lt hwc⟩

/-- The dense-order invariant on the accumulator. -/
def dense_inv (acc : List Contribution) (seq : Nat) : Prop :=
  acc.length = seq ∧ ∀ i (h : i < acc.length),
    acc[i].sequence_order = i ∧ 3 ≤ py_word_count acc[i].text

/-- Dense positions and the three-word floor, as a property of an output
list. -/
def dense_out (l : List Contribution) : Prop :=
  ∀ i (h : i < l.length),
    l[i].sequence_order = i ∧ 3 ≤ py_word_count l[i].text

/-- Appending a freshly built contribution preserves the invariant. -/
theorem dense_inv_append {acc : List Contribution} {seq : Nat}
    {c : Contribution} (hinv : dense_inv acc seq)
    (hc : c.sequence_order = seq) (hw : 3 ≤ py_word_count c.text) :
    dense_inv (acc ++ [c]) (seq + 1) := by
  obtain ⟨hlen, hget⟩ := hinv
  refine ⟨by simp [hlen], fun i h => ?_⟩
  by_cases hi : i < acc.length
  · rw [List.getElem_append_left hi]
    exact hget i hi
  · have hieq : i = acc.length := by
      simp only [List.length_append, List.length_singleton] at h
      omega
    subst hieq
    simp only [List.getElem_concat_length]
    exact ⟨by omega, hw⟩

/-- The grouping loop keeps the dense-order property through to its
output. -/
theorem extract_loop_dense (mapping : Nat → Option String)
    (did lang : String) (rest : List (Nat × Segment)) :
    ∀ (cur curRaw : Option String) (curSegs : List Segment) (seq : Nat)
      (acc : List Contribution), dense_inv acc seq →
      dense_out (extract_loop mapping did lang rest cur curRaw curSegs
        seq acc) := by
  induction rest with
  | nil =>
    intro cur curRaw curSegs seq acc hinv
    simp only [extract_loop]
    split
    · split
      · rename_i c hc
        have hprops := build_contribution_props hc
        exact (dense_inv_append hinv hprops.1 hprops.2).2
      · exact hinv.2
    · exact hinv.2
  | cons p rest ih =>
    intro cur curRaw curSegs seq acc hinv
    rcases p with ⟨idx, seg⟩
    simp only [extract_loop]
    split
    · split
      · rename_i c hc
        have hprops := build_contribution_props hc
        exact ih _ _ _ _ _ (dense_inv_append hinv hprops.1 hprops.2)
      · exact ih _ _ _ _ _ hinv
    · exact ih _ _ _ _ _ hinv

/-- `add_fr` touches only `text_fr`. -/
theorem add_fr_preserves (s : List Segment) (c : Contribution) :
    (add_fr s c).sequence_order = c.sequence_order ∧
    (add_fr s c).text = c.text := by
  simp only [add_fr]
  split <;> exact ⟨rfl, rfl⟩

end Pipeline

/-! ## C8: dense sequence order and the three-word floor -/

/-- C8: for every input transcript list and segment-to-speaker mapping,
`extract_contributions` returns contributions whose `sequence_order`
values are exactly `0, 1, …, N-1` in list order — dropped short groups
leave no gaps — and every returned contribution's text has at least three
words. -/
theorem C8_extract_contributions_dense_min_words
    (transcripts : List Pipeline.Transcript)
    (mapping : Nat → Option String) (did : String)
    (i : Nat)
    (h : i < (Pipeline.extract_contributions transcripts mapping did).length) :
    (Pipeline.extract_contributions transcripts mapping
        did)[i].sequence_order = i ∧
    3 ≤ Pipeline.py_word_count
      (Pipeline.extract_contributions transcripts mapping did)[i].text := by
  cases transcripts with
  | nil =>
    exact absurd h (by simp [Pipeline.extract_contributions])
  | cons primary restT =>
    by_cases hseg : primary.segments = []
    · exact absurd h (by simp [Pipeline.extract_contributions, hseg])
    · have hbase := Pipeline.extract_loop_dense mapping did primary.language
        primary.segments.enum none none [] 0 [] ⟨rfl, by simp⟩
      cases restT with
      | nil =>
        have hred : Pipeline.extract_contributions [primary] mapping did
            = Pipeline.extract_loop mapping did primary.language
                primary.segments.enum none none [] 0 [] := by
          simp [Pipeline.extract_contributions, hseg]
        revert h
        rw [hred]
        intro h
        exact hbase i h
      | cons fr tail =>
        by_cases hfr : fr.segments = []
        · have hred : Pipeline.extract_contributions (primary :: fr :: tail)
              mapping did
              = Pipeline.extract_loop mapping did primary.language
                  primary.segments.enum none none [] 0 [] := by
            simp [Pipeline.extract_contributions, hseg, hfr]
          revert h
          rw [hred]
          intro h
          exact hbase i h
        · have hred : Pipeline.extract_contributions (primary :: fr :: tail)
              mapping did
              = (Pipeline.extract_loop mapping did primary.language
                  primary.segments.enum none none [] 0 []).map
                  (Pipeline.add_fr fr.segments) := by
            simp [Pipeline.extract_contributions, hseg, hfr]
          revert h
          rw [hred]
          intro h
          have hlen : i < (Pipeline.extract_loop mapping did primary.language
              primary.segments.enum none none [] 0 []).length := by
            simpa using h
          rw [List.getElem_map]
          have hb := hbase i hlen
          have hp := Pipeline.add_fr_preserves fr.segments
            (Pipeline.extract_loop mapping did primary.language
              primary.segments.enum none none [] 0 [])[i]
          rw [hp.1, hp.2]
          exact hb

/-- Witness for C8 at a concrete input: a one-segment transcript with one
speaker yields one contribution with `sequence_order` 0 and at least three
words. -/
theorem C8_extract_contributions_dense_min_words_witness :
    (Pipeline.extract_contributions
        [⟨[⟨"hello there general kenobi", 0, 2⟩], "en"⟩]
        (fun _ => some "k") "d")[0].sequence_order = 0 ∧
    3 ≤ Pipeline.py_word_count
      (Pipeline.extract_contributions
        [⟨[⟨"hello there general kenobi", 0, 2⟩], "en"⟩]
        (fun _ => some "k") "d")[0].text := by
  exact C8_extract_contributions_dense_min_words
    [⟨[⟨"hello there general kenobi", 0, 2⟩], "en"⟩]
    (fun _ => some "k") "d" 0 (by decide)

namespace Pipeline

/-! ## Categoriser merge (`app/summarization/categorizer.py`,
`_merge_classifications`) -/

/-- Python dict assignment `m[k] = v` on an insertion-ordered dict. -/
def dict_set (m : List (String × ℚ)) (k : String) (v : ℚ) :
    List (String × ℚ) :=
  if m.any (fun p => p.1 = k) then
    m.map fun p => if p.1 = k then (k, v) else p
  else m ++ [(k, v)]

/-- Python `m[k] = m.get(k, 0) + v` on an insertion-ordered dict. -/
def dict_add (m : List (String × ℚ)) (k : String) (v : ℚ) :
    List (String × ℚ) :=
  if m.any (fun p => p.1 = k) then
    m.map fun p => if p.1 = k then (p.1, p.2 + v) else p
  else m ++ [(k, v)]

/-- The merged per-topic scores (categorizer.py lines 211-221): keyword
scores weighted 0.3 are written first, then LLM confidences weighted 0.7
are added. -/
def merged_scores (keyword_scores llm_categories : List (String × ℚ)) :
    List (String × ℚ) :=
  let m1 := keyword_scores.foldl (fun m p => dict_set m p.1 (p.2 * (3/10))) []
  llm_categories.foldl (fun m p => dict_add m p.1 (p.2 * (7/10))) m1

/-- Stable insertion for a descending sort by score: walk past strictly
greater scores only, so that equal scores keep their original order —
Python's stable `sorted(..., reverse=True)`. -/
def insert_desc (x : String × ℚ) : List (String × ℚ) → List (String × ℚ)
  | [] => [x]
  | y :: ys => if y.2 > x.2 then y :: insert_desc x ys else x :: y :: ys

/-- Stable descending sort by score. -/
def sort_desc : List (String × ℚ) → List (String × ℚ)
  | [] => []
  | x :: xs => insert_desc x (sort_desc xs)

/-- Python `round(q, 3)`. -/
def py_round3 (q : ℚ) : ℚ := (round_half_even (q * 1000) : ℚ) / 1000

/-- Embedding of `_merge_classifications` (categorizer.py lines 206-243):
sum the weighted signals per topic, sort descending, enumerate the top 3,
keep those scoring at least 0.1 (the code uses `>=`), mark index 0
primary, and fall back to a single primary `general` of confidence 0.5
when nothing survives. -/
def merge_classifications (keyword_scores llm_categories :
    List (String × ℚ)) : List CategoryAssignment :=
  let merged := merged_scores keyword_scores llm_categories
  if merged = [] then
    [{ topic_slug := "general", confidence := 1/2, is_primary := true }]
  else
    let sorted_topics := sort_desc merged
    let categories := ((sorted_topics.take 3).enum).filterMap fun p =>
      if p.2.2 ≥ 1/10 then
        some { topic_slug := p.2.1, confidence := py_round3 (min 1 p.2.2),
               is_primary := p.1 = 0 }
      else none
    if categories = [] then
      [{ topic_slug := "general", confidence := 1/2, is_primary := true }]
    else categories

/-- Modelled from the spec's words for comparison with the code: "topics
above 0.1 are kept, sorted descending, capped at 3; the top-scored topic
is marked primary; if nothing scores above threshold, a single primary
`general` category with confidence 0.5 is emitted" — with a strict
`> 0.1` threshold as the sentence says. -/
def merge_classifications_claim (keyword_scores llm_categories :
    List (String × ℚ)) : List CategoryAssignment :=
  let merged := merged_scores keyword_scores llm_categories
  let kept := ((sort_desc merged).filter fun p => p.2 > 1/10).take 3
  if kept = [] then
    [{ topic_slug := "general", confidence := 1/2, is_primary := true }]
  else kept.enum.map fun p =>
    { topic_slug := p.2.1, confidence := py_round3 (min 1 p.2.2),
      is_primary := p.1 = 0 }

end Pipeline

namespace Pipeline

/-- Membership through `insert_desc`. -/
theorem mem_insert_desc {x y : String × ℚ} {l : List (String × ℚ)} :
    x ∈ insert_desc y l ↔ x = y ∨ x ∈ l := by
  induction l with
  | nil => simp [insert_desc]
  | cons z zs ih =>
    unfold insert_desc
    split
    · rw [List.mem_cons, ih]
      constructor
      · rintro (h | h | h)
        · exact Or.inr (List.mem_cons.mpr (Or.inl h))
        · exact Or.inl h
        · exact Or.inr (List.mem_cons.mpr (Or.inr h))
      · rintro (h | h)
        · exact Or.inr (Or.inl h)
        · rcases List.mem_cons.mp h with h1 | h1
          · exact Or.inl h1
          · exact Or.inr (Or.inr h1)
    · simp [List.mem_cons]

/-- Membership through `sort_desc`. -/
theorem mem_sort_desc {x : String × ℚ} {l : List (String × ℚ)} :
    x ∈ sort_desc l ↔ x ∈ l := by
  induction l with
  | nil => simp [sort_desc]
  | cons z zs ih =>
    unfold sort_desc
    rw [mem_insert_desc, ih, List.mem_cons]

/-- `insert_desc` preserves the weakly-descending pairwise order. -/
theorem pairwise_insert_desc (x : String × ℚ) (l : List (String × ℚ))
    (h : l.Pairwise fun a b => b.2 ≤ a.2) :
    (insert_desc x l).Pairwise fun a b => b.2 ≤ a.2 := by
  induction l with
  | nil => simp [insert_desc]
  | cons y ys ih =>
    rw [List.pairwise_cons] at h
    unfold insert_desc
    split
    · rename_i hgt
      rw [List.pairwise_cons]
      refine ⟨fun z hz => ?_, ih h.2⟩
      rcases mem_insert_desc.mp hz with h1 | h1
      · exact h1 ▸ le_of_lt hgt
      · exact h.1 z h1
    · rename_i hle
      rw [List.pairwise_cons]
      refine ⟨fun z hz => ?_, List.pairwise_cons.mpr h⟩
      rcases List.mem_cons.mp hz with h1 | h1
      · exact h1 ▸ le_of_not_lt hle
      · exact le_trans (h.1 z h1) (le_of_not_lt hle)

/-- The sorted list is weakly descending. -/
theorem sort_desc_pairwise (l : List (String × ℚ)) :
    (sort_desc l).Pairwise fun a b => b.2 ≤ a.2 := by
  induction l with
  | nil => simp [sort_desc]
  | cons x xs ih => exact pairwise_insert_desc x _ ih

/-- Sorting a nonempty list yields a nonempty list. -/
theorem sort_desc_ne_nil {l : List (String × ℚ)} (h : l ≠ []) :
    sort_desc l ≠ [] := by
  cases l with
  | nil => exact absurd rfl h
  | cons x xs =>
    unfold sort_desc
    cases hs : sort_desc xs with
    | nil => simp [insert_desc]
    | cons y ys =>
      unfold insert_desc
      split <;> simp

/-- The guard used when assembling categories from the enumerated top-3
list. -/
def cat_of_enum (p : Nat × (String × ℚ)) : Option CategoryAssignment :=
  if p.2.2 ≥ 1/10 then
    some { topic_slug := p.2.1, confidence := py_round3 (min 1 p.2.2),
           is_primary := p.1 = 0 }
  else none

/-- Categories built from positions `≥ 1` are never primary. -/
theorem enumFrom_cat_not_primary (l : List (String × ℚ)) :
    ∀ n, 1 ≤ n → ∀ a ∈ (List.enumFrom n l).filterMap cat_of_enum,
      a.is_primary = false := by
  induction l with
  | nil => intro n _ a ha; simp [List.enumFrom] at ha
  | cons x xs ih =>
    intro n hn a ha
    rw [show List.enumFrom n (x :: xs) = (n, x) :: List.enumFrom (n + 1) xs
        from rfl, List.filterMap_cons] at ha
    rcases hfx : cat_of_enum (n, x) with _ | c
    · rw [hfx] at ha
      exact ih (n + 1) (by omega) a ha
    · rw [hfx] at ha
      rcases List.mem_cons.mp ha with h1 | h1
      · unfold cat_of_enum at hfx
        split at hfx
        · cases hfx
          subst h1
          simpa using by omega
        · cases hfx
      · exact ih (n + 1) (by omega) a h1

end Pipeline

namespace Pipeline

/-- The categories assembly of `_merge_classifications`, as a function of
the merged score dict. -/
def merge_body (merged : List (String × ℚ)) : List CategoryAssignment :=
  if merged = [] then
    [{ topic_slug := "general", confidence := 1/2, is_primary := true }]
  else
    let kept := ((sort_desc merged).take 3).enum.filterMap cat_of_enum
    if kept = [] then
      [{ topic_slug := "general", confidence := 1/2, is_primary := true }]
    else kept

/-- `merge_classifications` factors through `merge_body` applied to
`merged_scores`. -/
theorem merge_classifications_eq (kw llm : List (String × ℚ)) :
    merge_classifications kw llm = merge_body (merged_scores kw llm) := rfl

/-- Everything the amended C9 needs, proved over an arbitrary merged score
dict. -/
theorem merge_body_props (merged : List (String × ℚ)) :
    (1 ≤ (merge_body merged).length ∧ (merge_body merged).length ≤ 3) ∧
    ((merge_body merged).head?.map (fun a => a.is_primary)) = some true ∧
    (∀ i (h : i < (merge_body merged).length),
      0 < i → (merge_body merged)[i].is_primary = false) ∧
    ((∀ p ∈ merged, p.2 < 1/10) →
      merge_body merged
        = [{ topic_slug := "general", confidence := 1/2,
             is_primary := true }]) ∧
    ((∃ p ∈ merged, 1/10 ≤ p.2) →
      (∀ a ∈ merge_body merged, ∃ p ∈ merged, 1/10 ≤ p.2 ∧
        a.topic_slug = p.1 ∧ a.confidence = py_round3 (min 1 p.2)) ∧
      (∀ a, (merge_body merged).head? = some a →
        ∃ p ∈ merged, a.topic_slug = p.1 ∧ ∀ q ∈ merged, q.2 ≤ p.2)) := by
  by_cases hm : merged = []
  · subst hm
    refine ⟨⟨by simp [merge_body], by simp [merge_body]⟩, by simp [merge_body],
      ?_, fun _ => by simp [merge_body], ?_⟩
    · intro i h hpos
      simp only [merge_body] at h
      simp at h
      omega
    · rintro ⟨p, hp, _⟩
      simp at hp
  · have hsne := sort_desc_ne_nil hm
    rcases hs : sort_desc merged with _ | ⟨h0, tail⟩
    · exact absurd hs hsne
    have hpair := sort_desc_pairwise merged
    rw [hs, List.pairwise_cons] at hpair
    have hbound : ∀ q ∈ merged, q.2 ≤ h0.2 := by
      intro q hq
      have hq2 : q ∈ sort_desc merged := mem_sort_desc.mpr hq
      rw [hs] at hq2
      rcases List.mem_cons.mp hq2 with h1 | h1
      · exact h1 ▸ le_refl _
      · exact hpair.1 q h1
    have h0mem : h0 ∈ merged := by
      have : h0 ∈ sort_desc merged := by rw [hs]; exact List.mem_cons_self _ _
      exact mem_sort_desc.mp this
    have henum : ((sort_desc merged).take 3).enum
        = (0, h0) :: List.enumFrom 1 (tail.take 2) := by
      rw [hs, List.take_succ_cons, List.enum_cons]
    have hkeptmem : ∀ a ∈ ((sort_desc merged).take 3).enum.filterMap
        cat_of_enum, ∃ p ∈ merged, 1/10 ≤ p.2 ∧
        a.topic_slug = p.1 ∧ a.confidence = py_round3 (min 1 p.2) := by
      intro a ha
      rcases List.mem_filterMap.mp ha with ⟨⟨i, p⟩, hmem, hfa⟩
      have hp3 : p ∈ (sort_desc merged).take 3 := by
        have h1 := List.mem_map_of_mem Prod.snd hmem
        rw [List.enum, List.enumFrom_map_snd] at h1
        exact h1
      have hpm : p ∈ merged := mem_sort_desc.mp (List.take_subset _ _ hp3)
      unfold cat_of_enum at hfa
      split at hfa
      · rename_i hsc
        cases hfa
        exact ⟨p, hpm, hsc, rfl, rfl⟩
      · cases hfa
    by_cases hscore : (1:ℚ)/10 ≤ h0.2
    · have hkeq : ((sort_desc merged).take 3).enum.filterMap cat_of_enum
          = { topic_slug := h0.1, confidence := py_round3 (min 1 h0.2),
              is_primary := true }
            :: (List.enumFrom 1 (tail.take 2)).filterMap cat_of_enum := by
        rw [henum, List.filterMap_cons]
        have hc0 : cat_of_enum (0, h0)
            = some { topic_slug := h0.1,
                     confidence := py_round3 (min 1 h0.2),
                     is_primary := true } := by
          unfold cat_of_enum
          rw [if_pos hscore]
          simp
        rw [hc0]
      have hout : merge_body merged
          = { topic_slug := h0.1, confidence := py_round3 (min 1 h0.2),
              is_primary := true }
            :: (List.enumFrom 1 (tail.take 2)).filterMap cat_of_enum := by
        simp only [merge_body, hm, if_false, hkeq]
        rw [if_neg (by simp)]
      refine ⟨⟨?_, ?_⟩, ?_, ?_, ?_, ?_⟩
      · rw [hout]
        simp
      · calc (merge_body merged).length
            ≤ ((sort_desc merged).take 3).enum.length := by
              rw [hout, ← hkeq]
              exact List.length_filterMap_le _ _
          _ ≤ 3 := by
              rw [List.enum_length, List.length_take]
              exact min_le_left _ _
      · rw [hout]
        rfl
      · intro i h hpos
        rcases i with _ | j
        · omega
        · revert h
          rw [hout]
          intro h
          rw [List.getElem_cons_succ]
          exact enumFrom_cat_not_primary (tail.take 2) 1 (le_refl _) _
            (List.getElem_mem _)
      · intro hall
        exact absurd hscore (not_le.mpr (hall h0 h0mem))
      · intro _
        constructor
        · intro a ha
          rw [hout, ← hkeq] at ha
          exact hkeptmem a ha
        · intro a ha
          rw [hout] at ha
          simp only [List.head?_cons, Option.some.injEq] at ha
          subst ha
          exact ⟨h0, h0mem, rfl, hbound⟩
    · -- the top score is below the threshold, so nothing survives
      have hkempty : ((sort_desc merged).take 3).enum.filterMap cat_of_enum
          = [] := by
        rw [List.filterMap_eq_nil_iff]
        rintro ⟨i, p⟩ hmem
        have hp3 : p ∈ (sort_desc merged).take 3 := by
          have h1 := List.mem_map_of_mem Prod.snd hmem
          rw [List.enum, List.enumFrom_map_snd] at h1
          exact h1
        have hpm : p ∈ merged := mem_sort_desc.mp (List.take_subset _ _ hp3)
        unfold cat_of_enum
        rw [if_neg]
        intro hge
        exact hscore (le_trans hge (hbound p hpm))
      have hout : merge_body merged
          = [{ topic_slug := "general", confidence := 1/2,
               is_primary := true }] := by
        simp only [merge_body, hm, if_false, hkempty]
        simp
      refine ⟨⟨by rw [hout]; simp, by rw [hout]; simp⟩, by rw [hout]; rfl,
        ?_, fun _ => hout, ?_⟩
      · intro i h hpos
        rw [hout] at h
        simp at h
        omega
      · rintro ⟨p, hp, hge⟩
        exact absurd hscore (not_not.mpr (le_trans hge (hbound p hp)))

end Pipeline

/-- C9 counterexample: the spec says topics "above 0.1" are kept, but
categorizer.py line 233 uses `score >= 0.1`. With a single LLM confidence
of exactly 1/7 the merged score is 1/7 * 7/10 = 1/10 exactly (reachable in
the float code too: 0.14285714285714288 * 0.7 == 0.1), so the code keeps
`healthcare` as primary while the spec's strict reading falls back to
`general`. -/
theorem C9_threshold_boundary_counterexample :
    Pipeline.merge_classifications [] [("healthcare", 1/7)]
        = [{ topic_slug := "healthcare", confidence := 1/10,
             is_primary := true }] ∧
    Pipeline.merge_classifications_claim [] [("healthcare", 1/7)]
        = [{ topic_slug := "general", confidence := 1/2,
             is_primary := true }] ∧
    Pipeline.merge_classifications [] [("healthcare", 1/7)]
        ≠ Pipeline.merge_classifications_claim [] [("healthcare", 1/7)] := by
  have hm : Pipeline.merged_scores [] [("healthcare", 1/7)]
      = [("healthcare", (1:ℚ)/10)] := by
    norm_num [Pipeline.merged_scores, Pipeline.dict_add]
  have hround : Pipeline.py_round3 (min 1 ((1:ℚ)/10)) = 1/10 := by
    have h1 : min (1:ℚ) (1/10) = 1/10 := by norm_num
    have h2 : ((1:ℚ)/10) * 1000 = 100 := by norm_num
    have h3 : Pipeline.round_half_even 100 = 100 := by
      have hf : ⌊(100:ℚ)⌋ = 100 := by norm_num
      simp only [Pipeline.round_half_even, hf]
      norm_num
    unfold Pipeline.py_round3
    rw [h1, h2, h3]
    norm_num
  have hcat : Pipeline.cat_of_enum (0, ("healthcare", (1:ℚ)/10))
      = some { topic_slug := "healthcare", confidence := (1:ℚ)/10,
               is_primary := true } := by
    simp only [Pipeline.cat_of_enum]
    rw [if_pos (le_refl ((1:ℚ)/10))]
    rw [hround]
    simp
  have hse : ((Pipeline.sort_desc [("healthcare", (1:ℚ)/10)]).take 3).enum
      = [(0, ("healthcare", (1:ℚ)/10))] := rfl
  have hkept : ((Pipeline.sort_desc
        [("healthcare", (1:ℚ)/10)]).take 3).enum.filterMap
        Pipeline.cat_of_enum
      = [{ topic_slug := "healthcare", confidence := (1:ℚ)/10,
           is_primary := true }] := by
    rw [hse]
    simp only [List.filterMap_cons, List.filterMap_nil, hcat]
  have hcode : Pipeline.merge_classifications [] [("healthcare", 1/7)]
      = [{ topic_slug := "healthcare", confidence := 1/10,
           is_primary := true }] := by
    rw [Pipeline.merge_classifications_eq, hm]
    simp only [Pipeline.merge_body]
    rw [if_neg (List.cons_ne_nil _ _), hkept,
      if_neg (List.cons_ne_nil _ _)]
  have hflt : ([("healthcare", (1:ℚ)/10)].filter fun p => p.2 > 1/10)
      = [] := by
    simp
  have hsd : Pipeline.sort_desc [("healthcare", (1:ℚ)/10)]
      = [("healthcare", (1:ℚ)/10)] := rfl
  have hclaim : Pipeline.merge_classifications_claim [] [("healthcare", 1/7)]
      = [{ topic_slug := "general", confidence := 1/2,
           is_primary := true }] := by
    simp only [Pipeline.merge_classifications_claim, hm, hsd, hflt,
      List.take_nil, if_true]
  refine ⟨hcode, hclaim, fun h => ?_⟩
  rw [hcode, hclaim] at h
  simp at h

/-- C9: amended — `_merge_classifications` sums per topic the keyword
score weighted 0.3 and the LLM confidence weighted 0.7; among the top 3
topics by (stable) descending score, those scoring AT LEAST 0.1 (the code
uses `>=`, not strictly above) are kept, each with confidence
`round(min(1, score), 3)`; the output always has between 1 and 3 entries,
its head is the unique primary entry, and when every merged score is below
0.1 (in particular when there are no topics at all) the output is the
single primary `general` category with confidence 0.5; when some topic
reaches 0.1, every emitted category comes from a topic scoring at least
0.1 and the head carries a maximal merged score. -/
theorem C9_merge_classifications_amended (kw llm : List (String × ℚ)) :
    (1 ≤ (Pipeline.merge_classifications kw llm).length ∧
      (Pipeline.merge_classifications kw llm).length ≤ 3) ∧
    ((Pipeline.merge_classifications kw llm).head?.map
      (fun a => a.is_primary)) = some true ∧
    (∀ i (h : i < (Pipeline.merge_classifications kw llm).length),
      0 < i → (Pipeline.merge_classifications kw llm)[i].is_primary
        = false) ∧
    ((∀ p ∈ Pipeline.merged_scores kw llm, p.2 < 1/10) →
      Pipeline.merge_classifications kw llm
        = [{ topic_slug := "general", confidence := 1/2,
             is_primary := true }]) ∧
    ((∃ p ∈ Pipeline.merged_scores kw llm, 1/10 ≤ p.2) →
      (∀ a ∈ Pipeline.merge_classifications kw llm,
        ∃ p ∈ Pipeline.merged_scores kw llm, 1/10 ≤ p.2 ∧
          a.topic_slug = p.1 ∧
          a.confidence = Pipeline.py_round3 (min 1 p.2)) ∧
      (∀ a, (Pipeline.merge_classifications kw llm).head? = some a →
        ∃ p ∈ Pipeline.merged_scores kw llm, a.topic_slug = p.1 ∧
          ∀ q ∈ Pipeline.merged_scores kw llm, q.2 ≤ p.2)) := by
  have h := Pipeline.merge_body_props (Pipeline.merged_scores kw llm)
  rw [← Pipeline.merge_classifications_eq] at h
  exact h

/-- Witness for C9 at a concrete input: a lone keyword score of 0.1 is
weighted down to 0.03, which is below the threshold, so the output is the
`general` fallback. -/
theorem C9_merge_classifications_amended_witness :
    Pipeline.merge_classifications [("economy", 1/10)] []
      = [{ topic_slug := "general", confidence := 1/2,
           is_primary := true }] := by
  refine (C9_merge_classifications_amended
    [("economy", 1/10)] []).2.2.2.1 ?_
  intro p hp
  have hm : Pipeline.merged_scores [("economy", 1/10)] []
      = [("economy", (3:ℚ)/100)] := by
    norm_num [Pipeline.merged_scores, Pipeline.dict_set]
  rw [hm] at hp
  rw [List.mem_singleton.mp hp]
  norm_num
